import Mathlib

/-!
Verification of the rsprime Reed-Solomon codec over prime fields GF(p).

The development shallowly embeds the code of the repository:
  - pfint.py    : prime-field elements (PFint), embedded as natural numbers
                  below p together with the exact validation performed by the
                  python constructor and operators;
  - rscoder.py  : the RSCoder pipeline (findgen, generator polynomial,
                  encode, verify, syndromes, Berlekamp-Massey, Chien search,
                  Forney, decode), embedded over ZMod p, which is exactly
                  arithmetic modulo p on values in [0, p);
  - polynomial.py is imported by rscoder.py but the file itself is not part
    of the sources available here; the dense-polynomial algebra is therefore
    modelled from the specification (descending coefficient order, leading
    zeros stripped on construction, addition/subtraction aligned at the
    constant term, schoolbook multiplication, Euclidean long division,
    Horner evaluation, coefficient access, structural equality).

Lists represent coefficient sequences in descending degree order, as the
source does: the head is the leading coefficient, the last element is the
constant term.  The abstraction map toPoly sends such a list to a Mathlib
polynomial over ZMod p, and the simulation lemmas below let all algebraic
reasoning happen on the Mathlib side.
-/

namespace RSPrime

open Polynomial
/-- Modelled from the spec: leading-zero stripping performed by the
Polynomial constructor of polynomial.py (coefficients are stored in
descending degree order, so stripping removes from the front). -/
def pstrip {p : ℕ} : List (ZMod p) → List (ZMod p)
  | [] => []
  | a :: t => if a = 0 then pstrip t else a :: t

/-- Modelled from the spec: normalisation used by every Polynomial
construction in polynomial.py; the zero polynomial is a single zero
coefficient. -/
def mkPoly {p : ℕ} (l : List (ZMod p)) : List (ZMod p) :=
  match pstrip l with
  | [] => [0]
  | l' => l'

/-- A coefficient list is in normal form: nonempty, and its leading
coefficient is nonzero unless it is the single-element zero polynomial. -/
def isNorm {p : ℕ} : List (ZMod p) → Prop
  | [] => False
  | [_] => True
  | a :: _ :: _ => a ≠ 0

/-- Addition of coefficient lists given in ascending order (helper for
padd; alignment at the constant term is alignment of the heads). -/
def addAsc {p : ℕ} : List (ZMod p) → List (ZMod p) → List (ZMod p)
  | [], v => v
  | u, [] => u
  | a :: u, b :: v => (a + b) :: addAsc u v

/-- Subtraction of coefficient lists given in ascending order (helper for
psub). -/
def subAsc {p : ℕ} : List (ZMod p) → List (ZMod p) → List (ZMod p)
  | [], v => v.map Neg.neg
  | u, [] => u
  | a :: u, b :: v => (a - b) :: subAsc u v

/-- Schoolbook convolution of coefficient lists in ascending order (helper
for pmul). -/
def mulAsc {p : ℕ} : List (ZMod p) → List (ZMod p) → List (ZMod p)
  | [], _ => []
  | a :: u, v => addAsc (v.map (fun x => a * x)) (0 :: mulAsc u v)

/-- Modelled from the spec: Polynomial.__add__ of polynomial.py — align at
the constant term, zero-pad the high-degree side, add coefficientwise,
re-normalise. -/
def padd {p : ℕ} (u v : List (ZMod p)) : List (ZMod p) :=
  mkPoly ((addAsc u.reverse v.reverse).reverse)

/-- Modelled from the spec: Polynomial.__sub__ of polynomial.py. -/
def psub {p : ℕ} (u v : List (ZMod p)) : List (ZMod p) :=
  mkPoly ((subAsc u.reverse v.reverse).reverse)

/-- Modelled from the spec: Polynomial.__mul__ of polynomial.py —
schoolbook convolution. -/
def pmul {p : ℕ} (u v : List (ZMod p)) : List (ZMod p) :=
  mkPoly ((mulAsc u.reverse v.reverse).reverse)

/-- Modelled from the spec: Polynomial.evaluate of polynomial.py — Horner
evaluation over the descending coefficient list. -/
def peval {p : ℕ} (l : List (ZMod p)) (z : ZMod p) : ZMod p :=
  l.foldl (fun acc c => acc * z + c) 0

/-- Modelled from the spec: Polynomial.get_coefficient of polynomial.py —
the coefficient of x^i, or zero beyond the degree. -/
def coeffAt {p : ℕ} (l : List (ZMod p)) (i : ℕ) : ZMod p :=
  l.reverse.getD i 0

/-- Modelled from the spec: the long-division loop of Polynomial.__divmod__
of polynomial.py.  One fuel step performs one subtraction of
t·v·x^d from the remainder; the loop stops when the remainder is zero or
its degree drops below the divisor's.  The leading-coefficient division is
the field division of pfint.py, which multiplies by the inverse-table
entry pow(x, p-2, p). -/
def pdivmodAux {p : ℕ} (v : List (ZMod p)) :
    ℕ → List (ZMod p) → List (ZMod p) → List (ZMod p) × List (ZMod p)
  | 0, q, r => (q, r)
  | fuel + 1, q, r =>
    if r ≠ [0] ∧ v.length ≤ r.length then
      let t : ZMod p := r.headD 0 * (v.headD 0) ^ (p - 2)
      let d := r.length - v.length
      let mono : List (ZMod p) := t :: List.replicate d 0
      pdivmodAux v fuel (padd q mono) (psub r (pmul mono v))
    else (q, r)

/-- Modelled from the spec: Polynomial.__divmod__ of polynomial.py
(quotient and remainder of Euclidean long division in descending order). -/
def pdivmod {p : ℕ} (u v : List (ZMod p)) : List (ZMod p) × List (ZMod p) :=
  pdivmodAux v (u.length + 1) (mkPoly [0]) (mkPoly u)

/-- Equality of Except results is decidable; concrete runs of the codec
are checked with decide. -/
instance {e a : Type} [DecidableEq e] [DecidableEq a] :
    DecidableEq (Except e a) := fun x y =>
  match x, y with
  | .ok u, .ok v =>
    if h : u = v then isTrue (by rw [h])
    else isFalse (fun hc => h (by injection hc))
  | .error u, .error v =>
    if h : u = v then isTrue (by rw [h])
    else isFalse (fun hc => h (by injection hc))
  | .ok _, .error _ => isFalse (fun hc => by injection hc)
  | .error _, .ok _ => isFalse (fun hc => by injection hc)

/-- Abstraction: a coefficient list in ascending order as a Mathlib
polynomial. -/
noncomputable def ofAsc {p : ℕ} : List (ZMod p) → Polynomial (ZMod p)
  | [] => 0
  | c :: t => Polynomial.C c + Polynomial.X * ofAsc t

/-- Abstraction: a descending coefficient list as a Mathlib polynomial. -/
noncomputable def toPoly {p : ℕ} (l : List (ZMod p)) : Polynomial (ZMod p) :=
  ofAsc l.reverse

/-- Models int(math.sqrt(n)) of pfint.py: the integer square root (the
float square root agrees with it on the machine ranges the program
handles). -/
def isqrt (n : ℕ) : ℕ :=
  (List.range (n + 1)).countP (fun i => i * i ≤ n) - 1

/-- Embeds is_prime of pfint.py: reject n below 2 and even n above 2, then
trial-divide by the odd numbers 3, 5, ... up to int(sqrt(n)).  The python
range(3, isqrt+1, 2) has (isqrt - 1) / 2 elements. -/
def is_prime (n : Int) : Bool :=
  if n < 2 ∨ (n % 2 == 0 ∧ n > 2) then false
  else
    (List.range' 3 ((isqrt n.toNat - 1) / 2) 2).all
      (fun i => n % (i : Int) != 0)

/-- Embeds PFint.__new__ of pfint.py.  The argument n models the python
value: none models python None (for which __new__ fabricates and returns a
subclass — a non-error outcome carrying no field element, modelled as
ok none), and some v models an integer argument, range-checked against
[0, p).  The instance cache is semantically transparent: only in-range
values are ever cached. -/
def pfNew (p : ℕ) (n : Option Int) : Except String (Option ℕ) :=
  if ¬ is_prime (p : Int) then
    .error "Specified field order is not a prime number."
  else
    match n with
    | none => .ok none
    | some v =>
      if (p : Int) ≤ v ∨ v < 0 then
        .error "Field elements must be between 0 and p-1"
      else .ok (some v.toNat)

/-- Embeds PFint.inverse of pfint.py: a lookup of invtable[p][a], where the
table holds pow(a, p-2, p) for a nonzero and None for a = 0, followed by
the PFint constructor on the looked-up value. -/
def pfInverse (p a : ℕ) : Except String (Option ℕ) :=
  pfNew p (if a = 0 then none else some ((a ^ (p - 2) % p : ℕ) : Int))

/-- Embeds PFint.__add__ of pfint.py on the path where the second operand
is a plain integer: the operand is passed through the PFint constructor
(range check, no reduction), then the sum is reduced modulo p. -/
def pfAdd (p a : ℕ) (other : Int) : Except String ℕ :=
  match pfNew p (some other) with
  | .error e => .error e
  | .ok none => .error "not a field element"
  | .ok (some o) => .ok ((a + o) % p)

/-- Embeds the success condition of findgen in rscoder.py: the number of
distinct values of pow(g, n, x) for n in range(x) equals x - 1. -/
def genCond (x g : ℕ) : Bool :=
  ((List.range x).map (fun n => g ^ n % x)).toFinset.card == x - 1

/-- Embeds findgen of rscoder.py: the first g in range(x) whose powers take
exactly x - 1 distinct values, if any. -/
def findgen (x : ℕ) : Option ℕ :=
  (List.range x).find? (genCond x)

/-- Embeds the validation performed by RSCoder.__init__ of rscoder.py, in
the order the python executes it: the n/k sign checks, n less than b,
k less than n, the default-mapper alphabet bound, the primality check made
by PFint(b), and the findgen scan (whose value feeds PFint; for prime b
the scan always succeeds, the none branch is unreachable).  Building g and
h afterwards cannot fail, so validation success is construction success. -/
def rsInit (b n k : Int) : Except String Unit :=
  if n < 0 ∨ k < 0 then .error "n and k must be positive"
  else if ¬ n < b then .error "n must be less than b"
  else if ¬ k < n then
    .error "Codeword length n must be greater than message length k"
  else if ¬ b ≤ 59 then .error "Base b too large for default mapper"
  else if ¬ is_prime b then
    .error "Specified field order is not a prime number."
  else
    match findgen b.toNat with
    | some _ => .ok ()
    | none => .error "findgen returned no generator"

/-- Embeds the generator-polynomial loop of RSCoder.__init__:
g(x) is the product of (x - a^l) for l = 1 .. nk. -/
def genpoly (p : ℕ) (a : ZMod p) (nk : ℕ) : List (ZMod p) :=
  (List.range nk).foldl
    (fun g l => pmul g (mkPoly [1, -(a ^ (l + 1))])) (mkPoly [1])

/-- Embeds the codeword-polynomial computation of RSCoder.encode: the
message polynomial is shifted by x^(n-k), the remainder modulo g is
subtracted, and the resulting coefficient sequence is returned. -/
def encC (p n k : ℕ) (a : ZMod p) (msg : List (ZMod p)) : List (ZMod p) :=
  let m := mkPoly msg
  let mprime := pmul m (mkPoly (1 :: List.replicate (n - k) 0))
  psub mprime (pdivmod mprime (genpoly p a (n - k))).2

/-- Embeds RSCoder.encode of rscoder.py on sequences of field elements
(the alphabet mapper translates symbols to exactly these values): pad the
message on the left with zeros to k, reject longer messages, build the
codeword polynomial, and either return its coefficients (leading zeros
stripped, the default) or pad them on the left to n (nostrip). -/
def rsEncode (p n k : ℕ) (a : ZMod p) (message : List (ZMod p))
    (nostrip : Bool) : Except String (List (ZMod p)) :=
  let message := List.replicate (k - message.length) 0 ++ message
  if k < message.length then .error "Message length is max k"
  else
    let ret := encC p n k a message
    .ok (if nostrip then List.replicate (n - ret.length) 0 ++ ret else ret)

/-- Embeds RSCoder.verify of rscoder.py: the received sequence, read as a
polynomial, leaves remainder zero modulo g. -/
def rsVerify (p n k : ℕ) (a : ZMod p) (code : List (ZMod p)) : Bool :=
  (pdivmod (mkPoly code) (genpoly p a (n - k))).2 == mkPoly [0]

/-- Embeds RSCoder._syndromes of rscoder.py: s = [0, r(a^1), ...,
r(a^(n-k))] in ascending positions, returned as the polynomial built from
reversed(s). -/
def rsSyndromes (p n k : ℕ) (a : ZMod p) (r : List (ZMod p)) :
    List (ZMod p) :=
  mkPoly (((List.range (n - k)).map
    (fun l => peval r (a ^ (l + 1)))).reverse ++ [0])

/-- State of the Berlekamp-Massey iteration of RSCoder._berlekamp_massey:
the current sigma, omega, tao, gamma polynomials and the D and B
integers. -/
structure BMState (p : ℕ) where
  sigma : List (ZMod p)
  omega : List (ZMod p)
  tao : List (ZMod p)
  gamma : List (ZMod p)
  D : ℕ
  B : ℕ

/-- Embeds the initialisation of RSCoder._berlekamp_massey. -/
def bmInit (p : ℕ) : BMState p :=
  { sigma := mkPoly [1], omega := mkPoly [1], tao := mkPoly [1],
    gamma := mkPoly [0], D := 0, B := 0 }

/-- Embeds the discrepancy Delta of RSCoder._berlekamp_massey: the
coefficient of z^(l+1) in (ONE + s) * sigma[l]. -/
def bmDelta (p : ℕ) (s : List (ZMod p)) (l : ℕ) (st : BMState p) : ZMod p :=
  coeffAt (pmul (padd (mkPoly [1]) s) st.sigma) (l + 1)

/-- Embeds Rule A of RSCoder._berlekamp_massey: sigma and omega get the
common update, tao and gamma are multiplied by z, D and B are kept. -/
def bmRuleA (p : ℕ) (s : List (ZMod p)) (l : ℕ) (st : BMState p) :
    BMState p :=
  { sigma := psub st.sigma
      (pmul (pmul (mkPoly [bmDelta p s l st]) (mkPoly [1, 0])) st.tao),
    omega := psub st.omega
      (pmul (pmul (mkPoly [bmDelta p s l st]) (mkPoly [1, 0])) st.gamma),
    tao := pmul (mkPoly [1, 0]) st.tao,
    gamma := pmul (mkPoly [1, 0]) st.gamma,
    D := st.D, B := st.B }

/-- Embeds Rule B of RSCoder._berlekamp_massey: sigma and omega get the
common update, tao and gamma become sigma // Delta and omega // Delta, and
D and B flip to l + 1 - D and 1 - B. -/
def bmRuleB (p : ℕ) (s : List (ZMod p)) (l : ℕ) (st : BMState p) :
    BMState p :=
  { sigma := psub st.sigma
      (pmul (pmul (mkPoly [bmDelta p s l st]) (mkPoly [1, 0])) st.tao),
    omega := psub st.omega
      (pmul (pmul (mkPoly [bmDelta p s l st]) (mkPoly [1, 0])) st.gamma),
    tao := (pdivmod st.sigma (mkPoly [bmDelta p s l st])).1,
    gamma := (pdivmod st.omega (mkPoly [bmDelta p s l st])).1,
    D := l + 1 - st.D, B := 1 - st.B }

/-- Embeds one iteration of the loop of RSCoder._berlekamp_massey for loop
index l, following exactly the python branch structure (the final
fall-through, where python raises, is unreachable because the three
branches are exhaustive). -/
def bmStep (p : ℕ) (s : List (ZMod p)) (l : ℕ) (st : BMState p) :
    BMState p :=
  if bmDelta p s l st = 0 ∨ 2 * st.D > l + 1 then bmRuleA p s l st
  else if bmDelta p s l st ≠ 0 ∧ 2 * st.D < l + 1 then bmRuleB p s l st
  else if 2 * st.D = l + 1 then
    if st.B = 0 then bmRuleA p s l st else bmRuleB p s l st
  else st

/-- The Berlekamp-Massey state after l iterations (python keeps all
intermediate states in lists indexed by l; only the successive values
matter). -/
def bmIter (p : ℕ) (s : List (ZMod p)) : ℕ → BMState p
  | 0 => bmInit p
  | l + 1 => bmStep p s l (bmIter p s l)

/-- Embeds RSCoder._berlekamp_massey of rscoder.py: run n - k iterations
and return the final sigma and omega. -/
def rsBM (p n k : ℕ) (s : List (ZMod p)) :
    List (ZMod p) × List (ZMod p) :=
  ((bmIter p s (n - k)).sigma, (bmIter p s (n - k)).omega)

/-- Embeds PFint.inverse as used inside decoding (on genuine field
elements over a prime p the table value pow(x, p-2, p) is the field
inverse); the zero argument, for which the python constructor returns a
subclass instead of an element, is modelled as an error and is unreachable
in the decoding runs analysed here. -/
def zinv (p : ℕ) (x : ZMod p) : Except String (ZMod p) :=
  if x = 0 then .error "inverse of zero" else .ok (x ^ (p - 2))

/-- Embeds RSCoder._chien_search of rscoder.py: evaluate sigma at a^l for
l = 1 .. b-2; on each root record X = (a^l)^(-1) and position
j = (b-1) - l, in ascending l order. -/
def rsChien (p bb : ℕ) (a : ZMod p) (sigma : List (ZMod p)) :
    Except String (List (ZMod p) × List ℕ) :=
  (List.range' 1 (bb - 2)).foldlM
    (fun acc l =>
      if peval sigma (a ^ l) = 0 then
        match zinv p (a ^ l) with
        | .error e => .error e
        | .ok xi => .ok (acc.1 ++ [xi], acc.2 ++ [bb - 1 - l])
      else .ok acc)
    (([], []) : List (ZMod p) × List ℕ)

/-- Embeds RSCoder._forney of rscoder.py: for each recorded X_l, evaluate
omega at X_l^(-1) and divide by the product of (1 - X_j * X_l^(-1)) over
the other recorded locations. -/
def rsForney (p : ℕ) (omega : List (ZMod p)) (X : List (ZMod p)) :
    Except String (List (ZMod p)) :=
  (List.range X.length).mapM (fun l =>
    match zinv p (X.getD l 0) with
    | .error e => .error e
    | .ok xinv =>
      let Yl := peval omega xinv
      let prod := (List.range X.length).foldl
        (fun pr ji => if ji ≠ l then pr * (1 - X.getD ji 0 * xinv) else pr) 1
      match zinv p prod with
      | .error e => .error e
      | .ok pinv => .ok (Yl * pinv))

/-- Embeds mapper.strip on value sequences: drop leading zero symbols. -/
def lstrip {p : ℕ} (l : List (ZMod p)) : List (ZMod p) :=
  l.dropWhile (fun x => x == 0)

/-- Embeds RSCoder.decode of rscoder.py on sequences of field elements: if
the word verifies, return it without its last n-k symbols (stripped of
leading zeros unless nostrip); otherwise run syndromes, Berlekamp-Massey,
the Chien search and Forney, assemble the error polynomial over positions
0 .. b-2, subtract it, and return all but the last n-k coefficients
(padded back to k on the left when nostrip). -/
def rsDecode (p n k bb : ℕ) (a : ZMod p) (r : List (ZMod p))
    (nostrip : Bool) : Except String (List (ZMod p)) :=
  if rsVerify p n k a r then
    let msg := r.take (r.length - (n - k))
    .ok (if nostrip then msg else lstrip msg)
  else
    let rp := mkPoly r
    let sz := rsSyndromes p n k a rp
    let so := rsBM p n k sz
    match rsChien p bb a so.1 with
    | .error e => .error e
    | .ok (X, j) =>
      match rsForney p so.2 X with
      | .error e => .error e
      | .ok Y =>
        let Elist := (List.range (bb - 1)).map
          (fun i => if j.contains i then Y.getD (j.indexOf i) 0 else 0)
        let E := mkPoly Elist.reverse
        let c := psub rp E
        let ret := c.take (c.length - (n - k))
        .ok (if nostrip then List.replicate (k - ret.length) 0 ++ ret
          else ret)

theorem ofAsc_coeff {p : ℕ} (l : List (ZMod p)) (n : ℕ) :
    (ofAsc l).coeff n = l.getD n 0 := by
  induction l generalizing n with
  | nil => simp [ofAsc]
  | cons c t ih =>
    cases n with
    | zero => simp [ofAsc, Polynomial.coeff_add, Polynomial.mul_coeff_zero]
    | succ n =>
      simp [ofAsc, Polynomial.coeff_add, Polynomial.coeff_C,
        Polynomial.coeff_X_mul, ih]

theorem toPoly_coeff {p : ℕ} (l : List (ZMod p)) (n : ℕ) :
    (toPoly l).coeff n = l.reverse.getD n 0 := by
  simp [toPoly, ofAsc_coeff]

theorem ofAsc_append_zero {p : ℕ} (l : List (ZMod p)) :
    ofAsc (l ++ [0]) = ofAsc l := by
  induction l with
  | nil => simp [ofAsc]
  | cons c t ih => simp [ofAsc, ih]

theorem toPoly_pstrip {p : ℕ} (l : List (ZMod p)) :
    toPoly (pstrip l) = toPoly l := by
  induction l with
  | nil => rfl
  | cons a t ih =>
    by_cases h : a = 0
    · subst h
      simpa [pstrip, toPoly, List.reverse_cons, ofAsc_append_zero] using ih
    · simp [pstrip, h]

theorem toPoly_mkPoly {p : ℕ} (l : List (ZMod p)) :
    toPoly (mkPoly l) = toPoly l := by
  unfold mkPoly
  rcases h : pstrip l with _ | ⟨a, t⟩
  · have := toPoly_pstrip l
    rw [h] at this
    simpa [toPoly, ofAsc] using this
  · have := toPoly_pstrip l
    rw [h] at this
    exact this

theorem isNorm_mkPoly {p : ℕ} (l : List (ZMod p)) : isNorm (mkPoly l) := by
  unfold mkPoly
  have : ∀ m : List (ZMod p), pstrip m = [] ∨
      (∃ a t, pstrip m = a :: t ∧ a ≠ 0) := by
    intro m
    induction m with
    | nil => exact Or.inl rfl
    | cons a t ih =>
      by_cases h : a = 0
      · simpa [pstrip, h] using ih
      · exact Or.inr ⟨a, t, by simp [pstrip, h], h⟩
  rcases this l with h | ⟨a, t, h, ha⟩
  · rw [h]; trivial
  · rw [h]
    cases t with
    | nil => trivial
    | cons b u => exact ha

theorem ofAsc_addAsc {p : ℕ} (u v : List (ZMod p)) :
    ofAsc (addAsc u v) = ofAsc u + ofAsc v := by
  induction u generalizing v with
  | nil => simp [addAsc, ofAsc]
  | cons a u ih =>
    cases v with
    | nil => simp [addAsc, ofAsc]
    | cons b v => simp [addAsc, ofAsc, ih]; ring

theorem ofAsc_map_neg {p : ℕ} (v : List (ZMod p)) :
    ofAsc (v.map Neg.neg) = -ofAsc v := by
  induction v with
  | nil => simp [ofAsc]
  | cons b v ih => simp [ofAsc, ih]; ring

theorem ofAsc_subAsc {p : ℕ} (u v : List (ZMod p)) :
    ofAsc (subAsc u v) = ofAsc u - ofAsc v := by
  induction u generalizing v with
  | nil => simp [subAsc, ofAsc, ofAsc_map_neg]
  | cons a u ih =>
    cases v with
    | nil => simp [subAsc, ofAsc]
    | cons b v =>
      simp [subAsc, ofAsc, ih]
      ring

theorem ofAsc_map_mul {p : ℕ} (a : ZMod p) (v : List (ZMod p)) :
    ofAsc (v.map (fun x => a * x)) = Polynomial.C a * ofAsc v := by
  induction v with
  | nil => simp [ofAsc]
  | cons b v ih => simp [ofAsc, ih]; ring

theorem ofAsc_mulAsc {p : ℕ} (u v : List (ZMod p)) :
    ofAsc (mulAsc u v) = ofAsc u * ofAsc v := by
  induction u with
  | nil => simp [mulAsc, ofAsc]
  | cons a u ih =>
    simp [mulAsc, ofAsc, ofAsc_addAsc, ofAsc_map_mul, ih]
    ring

theorem toPoly_padd {p : ℕ} (u v : List (ZMod p)) :
    toPoly (padd u v) = toPoly u + toPoly v := by
  unfold padd
  rw [toPoly_mkPoly]
  unfold toPoly
  rw [List.reverse_reverse, ofAsc_addAsc]

theorem toPoly_psub {p : ℕ} (u v : List (ZMod p)) :
    toPoly (psub u v) = toPoly u - toPoly v := by
  unfold psub
  rw [toPoly_mkPoly]
  unfold toPoly
  rw [List.reverse_reverse, ofAsc_subAsc]

theorem toPoly_pmul {p : ℕ} (u v : List (ZMod p)) :
    toPoly (pmul u v) = toPoly u * toPoly v := by
  unfold pmul
  rw [toPoly_mkPoly]
  unfold toPoly
  rw [List.reverse_reverse, ofAsc_mulAsc]

theorem ofAsc_eval {p : ℕ} (l : List (ZMod p)) (z : ZMod p) :
    (ofAsc l).eval z = l.foldr (fun c acc => acc * z + c) 0 := by
  induction l with
  | nil => simp [ofAsc]
  | cons c t ih => simp [ofAsc, ih]; ring

theorem peval_eq {p : ℕ} (l : List (ZMod p)) (z : ZMod p) :
    peval l z = (toPoly l).eval z := by
  rw [peval, toPoly, ofAsc_eval, List.foldr_reverse]

theorem coeffAt_eq {p : ℕ} (l : List (ZMod p)) (i : ℕ) :
    coeffAt l i = (toPoly l).coeff i := by
  rw [toPoly_coeff, coeffAt]

theorem toPoly_single {p : ℕ} (c : ZMod p) : toPoly [c] = Polynomial.C c := by
  simp [toPoly, ofAsc]

theorem toPoly_zero {p : ℕ} : toPoly ([0] : List (ZMod p)) = 0 := by
  simp [toPoly_single]

theorem isNorm_ne_nil {p : ℕ} {l : List (ZMod p)} (h : isNorm l) : l ≠ [] := by
  intro hl; subst hl; exact h

theorem isNorm_length_pos {p : ℕ} {l : List (ZMod p)} (h : isNorm l) :
    1 ≤ l.length := by
  cases l with
  | nil => exact absurd rfl (isNorm_ne_nil h)
  | cons a t => simp

theorem isNorm_headD {p : ℕ} {l : List (ZMod p)} (h : isNorm l) (h0 : l ≠ [0]) :
    l.headD 0 ≠ 0 := by
  cases l with
  | nil => exact absurd rfl (isNorm_ne_nil h)
  | cons a t =>
    cases t with
    | nil =>
      intro ha
      exact h0 (by simpa using ha)
    | cons b u => exact h

theorem reverse_getD_top {p : ℕ} (l : List (ZMod p)) (hl : l ≠ []) :
    l.reverse.getD (l.length - 1) 0 = l.headD 0 := by
  cases l with
  | nil => exact absurd rfl hl
  | cons a t =>
    have h1 : (a :: t).reverse = t.reverse ++ [a] := by simp
    have h2 : t.reverse.length = t.length := by simp
    rw [h1]
    rw [List.getD_append_right]
    · simp [h2]
    · simp [h2]

theorem toPoly_coeff_top {p : ℕ} {l : List (ZMod p)} (hl : l ≠ []) :
    (toPoly l).coeff (l.length - 1) = l.headD 0 := by
  rw [toPoly_coeff, reverse_getD_top l hl]

theorem toPoly_coeff_of_le {p : ℕ} (l : List (ZMod p)) {m : ℕ}
    (hm : l.length ≤ m) : (toPoly l).coeff m = 0 := by
  rw [toPoly_coeff]
  exact List.getD_eq_default _ _ (by simpa using hm)

theorem toPoly_ne_zero {p : ℕ} {l : List (ZMod p)} (h : isNorm l)
    (h0 : l ≠ [0]) : toPoly l ≠ 0 := by
  intro hz
  have := toPoly_coeff_top (isNorm_ne_nil h)
  rw [hz] at this
  exact isNorm_headD h h0 (by simpa using this.symm)

theorem toPoly_degree {p : ℕ} {l : List (ZMod p)} (h : isNorm l)
    (h0 : l ≠ [0]) : (toPoly l).degree = (l.length - 1 : ℕ) := by
  apply le_antisymm
  · rw [Polynomial.degree_le_iff_coeff_zero]
    intro m hm
    have h1 : l.length - 1 < m := by exact_mod_cast hm
    have h2 : 1 ≤ l.length := isNorm_length_pos h
    exact toPoly_coeff_of_le l (by omega)
  · apply Polynomial.le_degree_of_ne_zero
    rw [toPoly_coeff_top (isNorm_ne_nil h)]
    exact isNorm_headD h h0

theorem toPoly_natDegree {p : ℕ} {l : List (ZMod p)} (h : isNorm l)
    (h0 : l ≠ [0]) : (toPoly l).natDegree = l.length - 1 :=
  Polynomial.natDegree_eq_of_degree_eq_some (toPoly_degree h h0)

theorem toPoly_leadingCoeff {p : ℕ} {l : List (ZMod p)} (h : isNorm l)
    (h0 : l ≠ [0]) : (toPoly l).leadingCoeff = l.headD 0 := by
  rw [Polynomial.leadingCoeff, toPoly_natDegree h h0,
    toPoly_coeff_top (isNorm_ne_nil h)]

theorem toPoly_eq_zero_iff {p : ℕ} {l : List (ZMod p)} (h : isNorm l) :
    toPoly l = 0 ↔ l = [0] := by
  constructor
  · intro hz
    by_contra h0
    exact toPoly_ne_zero h h0 hz
  · intro h0; subst h0; exact toPoly_zero

theorem ofAsc_replicate_zero {p : ℕ} (d : ℕ) (t : ZMod p) :
    ofAsc (List.replicate d 0 ++ [t]) = Polynomial.C t * Polynomial.X ^ d := by
  induction d with
  | zero => simp [ofAsc]
  | succ d ih =>
    rw [List.replicate_succ, List.cons_append]
    show Polynomial.C 0 + Polynomial.X * ofAsc _ = _
    rw [ih, Polynomial.C_0, zero_add]
    ring

theorem toPoly_monomialList {p : ℕ} (t : ZMod p) (d : ℕ) :
    toPoly (t :: List.replicate d 0) = Polynomial.C t * Polynomial.X ^ d := by
  rw [toPoly]
  simp only [List.reverse_cons, List.reverse_replicate]
  exact ofAsc_replicate_zero d t

theorem pstrip_length_le {p : ℕ} (l : List (ZMod p)) :
    (pstrip l).length ≤ l.length := by
  induction l with
  | nil => simp [pstrip]
  | cons a t ih =>
    by_cases h : a = 0
    · simp only [pstrip, if_pos h]
      exact Nat.le_succ_of_le ih
    · simp [pstrip, h]

theorem mkPoly_length_le {p : ℕ} (l : List (ZMod p)) :
    (mkPoly l).length ≤ l.length + 1 := by
  unfold mkPoly
  rcases h : pstrip l with _ | ⟨a, t⟩
  · simp
  · have := pstrip_length_le l
    rw [h] at this
    exact Nat.le_succ_of_le this

theorem isNorm_padd {p : ℕ} (u v : List (ZMod p)) : isNorm (padd u v) :=
  isNorm_mkPoly _

theorem isNorm_psub {p : ℕ} (u v : List (ZMod p)) : isNorm (psub u v) :=
  isNorm_mkPoly _

theorem isNorm_pmul {p : ℕ} (u v : List (ZMod p)) : isNorm (pmul u v) :=
  isNorm_mkPoly _

theorem pdivmodAux_zeroRem {p : ℕ} (v : List (ZMod p)) (fuel : ℕ)
    (q : List (ZMod p)) : pdivmodAux v fuel q [0] = (q, [0]) := by
  cases fuel with
  | zero => rfl
  | succ fuel => simp [pdivmodAux]

theorem zmod_pow_sub_two_eq_inv {p : ℕ} [Fact p.Prime] {x : ZMod p}
    (hx : x ≠ 0) : x ^ (p - 2) = x⁻¹ := by
  have hp2 : 2 ≤ p := (Fact.out : p.Prime).two_le
  have h1 : x ^ (p - 2) * x = 1 := by
    rw [← pow_succ, show p - 2 + 1 = p - 1 from by omega]
    exact ZMod.pow_card_sub_one_eq_one hx
  exact eq_inv_of_mul_eq_one_left h1

theorem pdivmod_step {p : ℕ} [Fact p.Prime] {v r : List (ZMod p)}
    (hv : isNorm v) (hv0 : v ≠ [0]) (hr : isNorm r) (hr0 : r ≠ [0])
    (hlen : v.length ≤ r.length) (t : ZMod p)
    (ht : t = r.headD 0 * (v.headD 0) ^ (p - 2)) :
    toPoly (psub r (pmul (t :: List.replicate (r.length - v.length) 0) v))
      = toPoly r
        - toPoly (t :: List.replicate (r.length - v.length) 0) * toPoly v ∧
    (psub r (pmul (t :: List.replicate (r.length - v.length) 0) v) = [0] ∨
      (psub r (pmul (t :: List.replicate (r.length - v.length) 0) v)).length
        < r.length) := by
  refine ⟨by rw [toPoly_psub, toPoly_pmul], ?_⟩
  by_cases hz :
      psub r (pmul (t :: List.replicate (r.length - v.length) 0) v) = [0]
  · exact Or.inl hz
  right
  have hrhead : r.headD 0 ≠ 0 := isNorm_headD hr hr0
  have hvhead : v.headD 0 ≠ 0 := isNorm_headD hv hv0
  rw [zmod_pow_sub_two_eq_inv hvhead] at ht
  have htne : t ≠ 0 := by
    rw [ht]; exact mul_ne_zero hrhead (inv_ne_zero hvhead)
  have hmono : toPoly (t :: List.replicate (r.length - v.length) 0)
      = Polynomial.C t * Polynomial.X ^ (r.length - v.length) :=
    toPoly_monomialList t _
  have hvl := isNorm_length_pos hv
  have hrl := isNorm_length_pos hr
  have hdm : (toPoly (t :: List.replicate (r.length - v.length) 0)
      * toPoly v).degree = ((r.length - 1 : ℕ) : WithBot ℕ) := by
    rw [Polynomial.degree_mul, hmono, Polynomial.degree_C_mul_X_pow _ htne,
      toPoly_degree hv hv0, ← Nat.cast_add]
    congr 1
    omega
  have hlc : (toPoly r).leadingCoeff
      = (toPoly (t :: List.replicate (r.length - v.length) 0)
          * toPoly v).leadingCoeff := by
    rw [Polynomial.leadingCoeff_mul, toPoly_leadingCoeff hr hr0,
      toPoly_leadingCoeff hv hv0, hmono, Polynomial.leadingCoeff_mul,
      Polynomial.leadingCoeff_C, Polynomial.leadingCoeff_X_pow, mul_one, ht,
      mul_assoc, inv_mul_cancel₀ hvhead, mul_one]
  have hsub := Polynomial.degree_sub_lt
    (by rw [toPoly_degree hr hr0, hdm]) (toPoly_ne_zero hr hr0) hlc
  have hps := isNorm_psub r (pmul (t :: List.replicate (r.length - v.length) 0) v)
  have hdeg' : (toPoly (psub r
      (pmul (t :: List.replicate (r.length - v.length) 0) v))).degree
      < ((r.length - 1 : ℕ) : WithBot ℕ) := by
    rw [toPoly_psub, toPoly_pmul]
    rw [toPoly_degree hr hr0] at hsub
    exact hsub
  rw [toPoly_degree hps hz] at hdeg'
  have hlt : (psub r (pmul (t :: List.replicate (r.length - v.length) 0) v)).length - 1
      < r.length - 1 := by exact_mod_cast hdeg'
  have := isNorm_length_pos hps
  omega

theorem pdivmodAux_spec {p : ℕ} [Fact p.Prime] {v : List (ZMod p)}
    (hv : isNorm v) (hv0 : v ≠ [0]) :
    ∀ (fuel : ℕ) (q r : List (ZMod p)), isNorm r → r.length ≤ fuel →
    isNorm (pdivmodAux v fuel q r).2 ∧
    toPoly (pdivmodAux v fuel q r).1 * toPoly v
        + toPoly (pdivmodAux v fuel q r).2
      = toPoly q * toPoly v + toPoly r ∧
    ((pdivmodAux v fuel q r).2 = [0] ∨
      (pdivmodAux v fuel q r).2.length < v.length) := by
  intro fuel
  induction fuel with
  | zero =>
    intro q r hr hfuel
    have := isNorm_length_pos hr
    omega
  | succ fuel ih =>
    intro q r hr hfuel
    by_cases hguard : r ≠ [0] ∧ v.length ≤ r.length
    · obtain ⟨hr0, hlen⟩ := hguard
      have hrun : pdivmodAux v (fuel + 1) q r
          = pdivmodAux v fuel
              (padd q ((r.headD 0 * (v.headD 0) ^ (p - 2)) :: List.replicate (r.length - v.length) 0))
              (psub r (pmul ((r.headD 0 * (v.headD 0) ^ (p - 2)) :: List.replicate (r.length - v.length) 0) v)) := by
        simp only [pdivmodAux]
        rw [if_pos ⟨hr0, hlen⟩]
      obtain ⟨hstep1, hstep2⟩ := pdivmod_step hv hv0 hr hr0 hlen
        (r.headD 0 * (v.headD 0) ^ (p - 2)) rfl
      rcases hstep2 with hz | hlt
      · rw [hrun, hz, pdivmodAux_zeroRem]
        have hr_eq : toPoly r
            = toPoly ((r.headD 0 * (v.headD 0) ^ (p - 2)) :: List.replicate (r.length - v.length) 0)
              * toPoly v := by
          have := hstep1
          rw [hz, toPoly_zero] at this
          have h := this.symm
          rwa [sub_eq_zero] at h
        refine ⟨trivial, ?_, Or.inl rfl⟩
        rw [toPoly_zero, toPoly_padd, add_zero, add_mul, hr_eq]
      · rw [hrun]
        have hnr := isNorm_psub r
          (pmul ((r.headD 0 * (v.headD 0) ^ (p - 2)) :: List.replicate (r.length - v.length) 0) v)
        obtain ⟨ha, hb, hc⟩ := ih _ _ hnr (by omega)
        refine ⟨ha, ?_, hc⟩
        rw [hb, hstep1, toPoly_padd]
        ring
    · have hrun : pdivmodAux v (fuel + 1) q r = (q, r) := by
        simp only [pdivmodAux]
        rw [if_neg hguard]
      rw [hrun]
      refine ⟨hr, rfl, ?_⟩
      by_cases h0 : r = [0]
      · exact Or.inl h0
      · push_neg at hguard
        exact Or.inr (hguard h0)

theorem pdivmod_spec {p : ℕ} [Fact p.Prime] (u : List (ZMod p))
    {v : List (ZMod p)} (hv : isNorm v) (hv0 : v ≠ [0]) :
    isNorm (pdivmod u v).2 ∧
    toPoly (pdivmod u v).1 * toPoly v + toPoly (pdivmod u v).2 = toPoly u ∧
    (toPoly (pdivmod u v).2).degree < (toPoly v).degree := by
  unfold pdivmod
  obtain ⟨h1, h2, h3⟩ := pdivmodAux_spec hv hv0 (u.length + 1) (mkPoly [0])
    (mkPoly u) (isNorm_mkPoly u) (mkPoly_length_le u)
  have hq0 : toPoly (mkPoly ([0] : List (ZMod p))) = 0 := by
    rw [toPoly_mkPoly, toPoly_zero]
  rw [hq0, zero_mul, zero_add, toPoly_mkPoly] at h2
  refine ⟨h1, h2, ?_⟩
  have hvdeg : (toPoly v).degree = ((v.length - 1 : ℕ) : WithBot ℕ) :=
    toPoly_degree hv hv0
  rcases h3 with hz | hlt
  · rw [hz, toPoly_zero, Polynomial.degree_zero, hvdeg]
    exact bot_lt_iff_ne_bot.mpr (by simp)
  · by_cases h0 : (pdivmodAux v (u.length + 1) (mkPoly [0]) (mkPoly u)).2 = [0]
    · rw [h0, toPoly_zero, Polynomial.degree_zero, hvdeg]
      exact bot_lt_iff_ne_bot.mpr (by simp)
    · rw [toPoly_degree h1 h0, hvdeg]
      have ha := isNorm_length_pos h1
      have hb := isNorm_length_pos hv
      exact_mod_cast (by omega :
        (pdivmodAux v (u.length + 1) (mkPoly [0]) (mkPoly u)).2.length - 1
          < v.length - 1)

theorem pdivmod_monic {p : ℕ} [Fact p.Prime] (u : List (ZMod p))
    {v : List (ZMod p)} (hv : isNorm v) (hv0 : v ≠ [0])
    (hm : (toPoly v).Monic) :
    toPoly (pdivmod u v).1 = toPoly u /ₘ toPoly v ∧
    toPoly (pdivmod u v).2 = toPoly u %ₘ toPoly v := by
  obtain ⟨h1, h2, h3⟩ := pdivmod_spec u hv hv0
  have hcomb : toPoly (pdivmod u v).2 + toPoly v * toPoly (pdivmod u v).1
      = toPoly u := by rw [← h2]; ring
  have h := Polynomial.div_modByMonic_unique (toPoly (pdivmod u v).1)
    (toPoly (pdivmod u v).2) hm ⟨hcomb, h3⟩
  exact ⟨h.1.symm, h.2.symm⟩

theorem pdivmod_constDiv {p : ℕ} [Fact p.Prime] (u : List (ZMod p))
    {c : ZMod p} (hc : c ≠ 0) :
    toPoly (pdivmod u [c]).1 = toPoly u * Polynomial.C c⁻¹ := by
  have hnorm : isNorm ([c] : List (ZMod p)) := trivial
  have hne : ([c] : List (ZMod p)) ≠ [0] := by
    intro h
    exact hc (by simpa using h)
  obtain ⟨h1, h2, h3⟩ := pdivmod_spec u hnorm hne
  have hdeg : (toPoly (pdivmod u [c]).2).degree < 0 := by
    rw [toPoly_single, Polynomial.degree_C hc] at h3
    exact h3
  have hr0 : toPoly (pdivmod u [c]).2 = 0 := by
    rw [← Polynomial.degree_eq_bot]
    exact Nat.WithBot.lt_zero_iff.mp hdeg
  rw [hr0, add_zero, toPoly_single] at h2
  calc toPoly (pdivmod u [c]).1
      = toPoly (pdivmod u [c]).1 * Polynomial.C c * Polynomial.C c⁻¹ := by
        rw [mul_assoc, ← Polynomial.C_mul, mul_inv_cancel₀ hc,
          Polynomial.C_1, mul_one]
    _ = toPoly u * Polynomial.C c⁻¹ := by rw [h2]

theorem find?_range_min {P : ℕ → Bool} {n a : ℕ}
    (h : (List.range n).find? P = some a) : ∀ b, b < a → P b = false := by
  induction n with
  | zero => simp [List.range_zero] at h
  | succ n ih =>
    rw [List.range_succ, List.find?_append] at h
    cases hn : (List.range n).find? P with
    | some c =>
      rw [hn] at h
      have hca : some c = some a := h
      injection hca with hca
      subst hca
      exact ih hn
    | none =>
      rw [hn] at h
      simp only [Option.none_or] at h
      intro b hb
      have hnone := List.find?_eq_none.mp hn
      have ha : a = n := by
        by_cases hP : P n
        · simp [List.find?, hP] at h
          omega
        · simp [List.find?, hP] at h
      subst ha
      exact Bool.eq_false_iff.mpr (hnone b (List.mem_range.mpr hb))

theorem pow_mod_descend {p g i j : ℕ} (hi : 1 ≤ i) (hij : i < j)
    (hmod : g ^ i % p = g ^ j % p) :
    ∀ t, ∃ u, u < j ∧ g ^ t % p = g ^ u % p := by
  intro t
  induction t using Nat.strong_induction_on with
  | _ t ih =>
    by_cases ht : t < j
    · exact ⟨t, ht, rfl⟩
    · push_neg at ht
      have hstep : g ^ t % p = g ^ (t - (j - i)) % p := by
        have hm : g ^ (t - j) * g ^ j % p = g ^ (t - j) * g ^ i % p :=
          Nat.ModEq.mul_left (g ^ (t - j)) hmod.symm
        calc g ^ t % p = g ^ (t - j + j) % p := by
              rw [Nat.sub_add_cancel ht]
          _ = g ^ (t - j) * g ^ j % p := by rw [pow_add]
          _ = g ^ (t - j) * g ^ i % p := hm
          _ = g ^ (t - j + i) % p := by rw [pow_add]
          _ = g ^ (t - (j - i)) % p := by
              rw [show t - (j - i) = t - j + i from by omega]
      obtain ⟨u, hu, hequ⟩ := ih (t - (j - i)) (by omega)
      exact ⟨u, hu, hstep.trans hequ⟩

theorem genCond_card {p g : ℕ} (hC : genCond p g = true) :
    ((List.range p).map (fun t => g ^ t % p)).toFinset.card = p - 1 := by
  unfold genCond at hC
  simp only [beq_iff_eq] at hC
  exact hC

theorem genCond_pow_inj {p g : ℕ} (hp2 : 2 ≤ p) (hC : genCond p g = true)
    {i j : ℕ} (hi : 1 ≤ i) (hij : i < j) (hj : j ≤ p - 2) :
    g ^ i % p ≠ g ^ j % p := by
  intro hmod
  have hsub : ((List.range p).map (fun t => g ^ t % p)).toFinset ⊆
      ((List.range j).map (fun t => g ^ t % p)).toFinset := by
    intro y hy
    simp only [List.mem_toFinset, List.mem_map, List.mem_range] at hy ⊢
    obtain ⟨t, ht, rfl⟩ := hy
    obtain ⟨u, hu, hequ⟩ := pow_mod_descend hi hij hmod t
    exact ⟨u, hu, hequ.symm⟩
  have hcard1 := genCond_card hC
  have hcard2 : ((List.range j).map (fun t => g ^ t % p)).toFinset.card ≤ j :=
    le_trans (List.toFinset_card_le _) (by simp)
  have := Finset.card_le_card hsub
  omega

theorem genCond_zero {p : ℕ} (hp : 2 ≤ p) (h3 : p ≠ 3) :
    genCond p 0 = false := by
  unfold genCond
  have himg : ((List.range p).map (fun n => (0 : ℕ) ^ n % p)).toFinset
      = {1, 0} := by
    ext y
    simp only [List.mem_toFinset, List.mem_map, List.mem_range,
      Finset.mem_insert, Finset.mem_singleton]
    constructor
    · rintro ⟨t, ht, rfl⟩
      cases t with
      | zero => left; simpa using Nat.mod_eq_of_lt (by omega)
      | succ t => right; simp
    · rintro (rfl | rfl)
      · exact ⟨0, by omega, by simpa using Nat.mod_eq_of_lt (by omega)⟩
      · exact ⟨1, by omega, by simp⟩
  rw [himg]
  have hcard : ({1, 0} : Finset ℕ).card = 2 := rfl
  rw [hcard]
  exact beq_eq_false_iff_ne.mpr (by omega)

theorem pow_mod_pos {p g : ℕ} (hp : p.Prime) (hg0 : 0 < g) (hgp : g < p)
    (i : ℕ) : 0 < g ^ i % p := by
  rcases Nat.eq_zero_or_pos (g ^ i % p) with h | h
  · exfalso
    have hdvd : p ∣ g ^ i := Nat.dvd_iff_mod_eq_zero.mpr h
    have := Nat.le_of_dvd hg0 (hp.dvd_of_dvd_pow hdvd)
    omega
  · exact h

theorem genCond_covers {p g : ℕ} (hp : p.Prime) (hg0 : 0 < g) (hgp : g < p)
    (hC : genCond p g = true) :
    ∀ y, 0 < y → y < p → ∃ i, i < p ∧ g ^ i % p = y := by
  have hpos : 0 < p := hp.pos
  have hsub : ((List.range p).map (fun t => g ^ t % p)).toFinset
      ⊆ Finset.Ioo 0 p := by
    intro y hy
    simp only [List.mem_toFinset, List.mem_map, List.mem_range] at hy
    obtain ⟨t, ht, rfl⟩ := hy
    exact Finset.mem_Ioo.mpr ⟨pow_mod_pos hp hg0 hgp t, Nat.mod_lt _ hpos⟩
  have heq := Finset.eq_of_subset_of_card_le hsub
    (by rw [Nat.card_Ioo, genCond_card hC]; omega)
  intro y hy0 hyp
  have hmem : y ∈ Finset.Ioo 0 p := Finset.mem_Ioo.mpr ⟨hy0, hyp⟩
  rw [← heq] at hmem
  simp only [List.mem_toFinset, List.mem_map, List.mem_range] at hmem
  obtain ⟨i, hi, hei⟩ := hmem
  exact ⟨i, hi, hei⟩

theorem findgen_spec {p g : ℕ} (hg : findgen p = some g) :
    genCond p g = true ∧ g < p ∧ ∀ b, b < g → genCond p b = false :=
  ⟨List.find?_some hg,
   by simpa using List.mem_of_find?_eq_some hg,
   find?_range_min hg⟩

theorem findgen_ne_zero {p : ℕ} (hp : p.Prime) (h3 : p ≠ 3) {g : ℕ}
    (hg : findgen p = some g) : g ≠ 0 := by
  intro h0
  subst h0
  have := (findgen_spec hg).1
  rw [genCond_zero hp.two_le h3] at this
  exact Bool.false_ne_true this

theorem natCast_zmod_ne_zero {p : ℕ} (hp : p.Prime) {g : ℕ} (hg0 : g ≠ 0)
    (hgp : g < p) : (g : ZMod p) ≠ 0 := by
  haveI : NeZero p := ⟨hp.ne_zero⟩
  intro h
  rw [ZMod.natCast_zmod_eq_zero_iff_dvd] at h
  exact absurd (Nat.le_of_dvd (Nat.pos_of_ne_zero hg0) h) (by omega)

theorem findgen_zmod_inj {p : ℕ} (hp : p.Prime) {g : ℕ}
    (hg : findgen p = some g) {i j : ℕ} (hi : 1 ≤ i) (hij : i < j)
    (hj : j ≤ p - 2) : ((g : ZMod p) ^ i) ≠ ((g : ZMod p) ^ j) := by
  intro he
  apply genCond_pow_inj hp.two_le (findgen_spec hg).1 hi hij hj
  have hc : ((g ^ i : ℕ) : ZMod p) = ((g ^ j : ℕ) : ZMod p) := by
    push_cast
    exact he
  exact (ZMod.natCast_eq_natCast_iff _ _ _).mp hc

theorem mkPoly_zero {p : ℕ} : mkPoly ([0] : List (ZMod p)) = [0] := by
  simp [mkPoly, pstrip]

theorem toPoly_linear {p : ℕ} (c : ZMod p) :
    toPoly [1, c] = Polynomial.X + Polynomial.C c := by
  show ofAsc [c, 1] = _
  show Polynomial.C c + Polynomial.X * (Polynomial.C 1 + Polynomial.X * 0) = _
  rw [Polynomial.C_1, mul_zero, add_zero, mul_one, add_comm]

theorem toPoly_genpoly {p : ℕ} (a : ZMod p) (nk : ℕ) :
    toPoly (genpoly p a nk)
      = ((List.range nk).map
          (fun l => Polynomial.X - Polynomial.C (a ^ (l + 1)))).prod := by
  unfold genpoly
  induction nk with
  | zero => simp [toPoly_mkPoly, toPoly_single]
  | succ n ih =>
    rw [List.range_succ, List.foldl_append, List.map_append,
      List.prod_append]
    simp only [List.foldl_cons, List.foldl_nil, List.map_cons, List.map_nil,
      List.prod_cons, List.prod_nil, mul_one]
    rw [toPoly_pmul, ih]
    congr 1
    rw [toPoly_mkPoly, toPoly_linear, Polynomial.C_neg]
    ring

theorem list_prod_monic {p : ℕ} [Fact p.Prime]
    (L : List (Polynomial (ZMod p))) (hL : ∀ q ∈ L, q.Monic) :
    L.prod.Monic := by
  induction L with
  | nil => simpa using Polynomial.monic_one
  | cons q t ih =>
    rw [List.prod_cons]
    exact (hL q (by simp)).mul (ih fun r hr => hL r (by simp [hr]))

theorem genpoly_monic {p : ℕ} [Fact p.Prime] (a : ZMod p) (nk : ℕ) :
    (toPoly (genpoly p a nk)).Monic := by
  rw [toPoly_genpoly]
  apply list_prod_monic
  intro q hq
  simp only [List.mem_map, List.mem_range] at hq
  obtain ⟨l, _, rfl⟩ := hq
  exact Polynomial.monic_X_sub_C _

theorem genpoly_isNorm {p : ℕ} (a : ZMod p) (nk : ℕ) :
    isNorm (genpoly p a nk) := by
  cases nk with
  | zero => exact isNorm_mkPoly _
  | succ n =>
    unfold genpoly
    rw [List.range_succ, List.foldl_append]
    exact isNorm_pmul _ _

theorem genpoly_ne_zeroList {p : ℕ} [Fact p.Prime] (a : ZMod p) (nk : ℕ) :
    genpoly p a nk ≠ [0] := by
  intro h
  have hm := genpoly_monic a nk
  rw [h, toPoly_zero] at hm
  exact hm.ne_zero rfl

theorem genpoly_degree {p : ℕ} [Fact p.Prime] (a : ZMod p) (nk : ℕ) :
    (toPoly (genpoly p a nk)).degree = (nk : ℕ) := by
  rw [toPoly_genpoly]
  induction nk with
  | zero => simp
  | succ n ih =>
    rw [List.range_succ, List.map_append, List.prod_append,
      Polynomial.degree_mul, ih]
    simp only [List.map_cons, List.map_nil, List.prod_cons, List.prod_nil,
      mul_one, Polynomial.degree_X_sub_C]
    rw [← Nat.cast_add_one]

theorem X_sub_C_dvd_genpoly {p : ℕ} (a : ZMod p) (nk : ℕ) {l : ℕ}
    (hl : l < nk) :
    (Polynomial.X - Polynomial.C (a ^ (l + 1))) ∣ toPoly (genpoly p a nk) := by
  rw [toPoly_genpoly]
  exact List.dvd_prod (List.mem_map.mpr ⟨l, List.mem_range.mpr hl, rfl⟩)

theorem rsVerify_iff_dvd {p : ℕ} [Fact p.Prime] (n k : ℕ) (a : ZMod p)
    (code : List (ZMod p)) :
    rsVerify p n k a code = true ↔
      toPoly (genpoly p a (n - k)) ∣ toPoly code := by
  unfold rsVerify
  have hmonic := genpoly_monic a (n - k)
  obtain ⟨hq, hr⟩ := pdivmod_monic (mkPoly code) (genpoly_isNorm a (n - k))
    (genpoly_ne_zeroList a (n - k)) hmonic
  rw [toPoly_mkPoly] at hr
  have hnorm := (pdivmod_spec (mkPoly code) (genpoly_isNorm a (n - k))
    (genpoly_ne_zeroList a (n - k))).1
  rw [beq_iff_eq, mkPoly_zero]
  constructor
  · intro h
    rw [← Polynomial.modByMonic_eq_zero_iff_dvd hmonic, ← hr, h, toPoly_zero]
  · intro h
    rw [← Polynomial.modByMonic_eq_zero_iff_dvd hmonic, ← hr] at h
    exact (toPoly_eq_zero_iff hnorm).mp h

theorem toPoly_shift {p : ℕ} (d : ℕ) :
    toPoly (mkPoly ((1 : ZMod p) :: List.replicate d 0)) = Polynomial.X ^ d := by
  rw [toPoly_mkPoly, toPoly_monomialList, Polynomial.C_1, one_mul]

theorem encC_toPoly {p : ℕ} [Fact p.Prime] (n k : ℕ) (a : ZMod p)
    (msg : List (ZMod p)) :
    toPoly (encC p n k a msg)
      = toPoly msg * Polynomial.X ^ (n - k)
        - (toPoly msg * Polynomial.X ^ (n - k)) %ₘ toPoly (genpoly p a (n - k)) := by
  unfold encC
  obtain ⟨hq, hr⟩ := pdivmod_monic
    (pmul (mkPoly msg) (mkPoly (1 :: List.replicate (n - k) 0)))
    (genpoly_isNorm a (n - k)) (genpoly_ne_zeroList a (n - k))
    (genpoly_monic a (n - k))
  rw [toPoly_psub, hr, toPoly_pmul, toPoly_mkPoly, toPoly_shift]

theorem encC_dvd {p : ℕ} [Fact p.Prime] (n k : ℕ) (a : ZMod p)
    (msg : List (ZMod p)) :
    toPoly (genpoly p a (n - k)) ∣ toPoly (encC p n k a msg) := by
  rw [encC_toPoly]
  set f := toPoly msg * Polynomial.X ^ (n - k)
  have h := Polynomial.modByMonic_add_div f (genpoly_monic a (n - k))
  exact ⟨f /ₘ toPoly (genpoly p a (n - k)), by linear_combination h.symm⟩

theorem encC_coeff_high {p : ℕ} [Fact p.Prime] (n k : ℕ) (a : ZMod p)
    (msg : List (ZMod p)) {j : ℕ} (hj : n - k ≤ j) :
    (toPoly (encC p n k a msg)).coeff j = (toPoly msg).coeff (j - (n - k)) := by
  rw [encC_toPoly, Polynomial.coeff_sub, Polynomial.coeff_mul_X_pow']
  rw [if_pos hj]
  have hdeg : ((toPoly msg * Polynomial.X ^ (n - k))
      %ₘ toPoly (genpoly p a (n - k))).degree < (j : WithBot ℕ) := by
    calc ((toPoly msg * Polynomial.X ^ (n - k))
        %ₘ toPoly (genpoly p a (n - k))).degree
        < (toPoly (genpoly p a (n - k))).degree :=
          Polynomial.degree_modByMonic_lt _ (genpoly_monic a (n - k))
      _ = ((n - k : ℕ) : WithBot ℕ) := genpoly_degree a (n - k)
      _ ≤ (j : WithBot ℕ) := by exact_mod_cast hj
  rw [Polynomial.coeff_eq_zero_of_degree_lt hdeg, sub_zero]

theorem toPoly_degree_lt_length {p : ℕ} (l : List (ZMod p)) :
    (toPoly l).degree < (l.length : ℕ) :=
  (Polynomial.degree_lt_iff_coeff_zero _ _).mpr
    (fun m hm => toPoly_coeff_of_le l (by exact_mod_cast hm))

theorem encC_coeff_top_zero {p : ℕ} [Fact p.Prime] (n k : ℕ) (a : ZMod p)
    (msg : List (ZMod p)) (hmsg : msg.length ≤ k) (hkn : k ≤ n) {j : ℕ}
    (hj : n ≤ j) : (toPoly (encC p n k a msg)).coeff j = 0 := by
  rw [encC_coeff_high n k a msg (by omega), toPoly_coeff_of_le]
  omega

theorem encC_length_le {p : ℕ} [Fact p.Prime] (n k : ℕ) (a : ZMod p)
    (msg : List (ZMod p)) (hmsg : msg.length ≤ k) (hkn : k ≤ n)
    (hn : 1 ≤ n) : (encC p n k a msg).length ≤ n := by
  have hnorm : isNorm (encC p n k a msg) := isNorm_psub _ _
  by_cases h0 : encC p n k a msg = [0]
  · rw [h0]; simpa using hn
  · have hdeg : (toPoly (encC p n k a msg)).degree < (n : ℕ) :=
      (Polynomial.degree_lt_iff_coeff_zero _ _).mpr
        (fun m hm => encC_coeff_top_zero n k a msg hmsg hkn
          (by exact_mod_cast hm))
    rw [toPoly_degree hnorm h0] at hdeg
    have := isNorm_length_pos hnorm
    have hlt : (encC p n k a msg).length - 1 < n := by exact_mod_cast hdeg
    omega

theorem ofAsc_append_replicate {p : ℕ} (j : ℕ) :
    ∀ l : List (ZMod p), ofAsc (l ++ List.replicate j 0) = ofAsc l := by
  induction j with
  | zero => intro l; simp
  | succ j ih =>
    intro l
    have : l ++ List.replicate (j + 1) 0 = (l ++ [0]) ++ List.replicate j 0 := by
      rw [List.append_assoc]
      rfl
    rw [this, ih, ofAsc_append_zero]

theorem toPoly_pad {p : ℕ} (j : ℕ) (l : List (ZMod p)) :
    toPoly (List.replicate j 0 ++ l) = toPoly l := by
  unfold toPoly
  rw [List.reverse_append, List.reverse_replicate]
  exact ofAsc_append_replicate j l.reverse

theorem get_eq_coeff {p : ℕ} (w : List (ZMod p)) (i : ℕ) (h : i < w.length) :
    w.get ⟨i, h⟩ = (toPoly w).coeff (w.length - 1 - i) := by
  rw [toPoly_coeff]
  rw [List.getD_eq_getElem _ _ (by rw [List.length_reverse]; omega)]
  rw [List.getElem_reverse]
  simp only [List.get_eq_getElem]
  congr 1
  omega

theorem rsEncode_ok {p n k : ℕ} (a : ZMod p) (m : List (ZMod p))
    (hm : m.length ≤ k) :
    rsEncode p n k a m true
      = .ok (List.replicate
          (n - (encC p n k a (List.replicate (k - m.length) 0 ++ m)).length) 0
          ++ encC p n k a (List.replicate (k - m.length) 0 ++ m)) := by
  unfold rsEncode
  rw [if_neg (by simp only [List.length_append, List.length_replicate]; omega)]
  rfl

theorem rsEncode_default_ok {p n k : ℕ} (a : ZMod p) (m : List (ZMod p))
    (hm : m.length ≤ k) :
    rsEncode p n k a m false
      = .ok (encC p n k a (List.replicate (k - m.length) 0 ++ m)) := by
  unfold rsEncode
  rw [if_neg (by simp only [List.length_append, List.length_replicate]; omega)]
  rfl

theorem rsVerify_encC_pad {p n k : ℕ} [Fact p.Prime] (a : ZMod p)
    (msg : List (ZMod p)) (j : ℕ) :
    rsVerify p n k a (List.replicate j 0 ++ encC p n k a msg) = true := by
  rw [rsVerify_iff_dvd, toPoly_pad]
  exact encC_dvd n k a msg

theorem rsDecode_verified_nostrip {p n k bb : ℕ} (a : ZMod p)
    (r : List (ZMod p)) (hver : rsVerify p n k a r = true) :
    rsDecode p n k bb a r true = .ok (r.take (r.length - (n - k))) := by
  unfold rsDecode
  rw [if_pos hver]
  rfl

theorem rsDecode_verified_strip {p n k bb : ℕ} (a : ZMod p)
    (r : List (ZMod p)) (hver : rsVerify p n k a r = true) :
    rsDecode p n k bb a r false
      = .ok (lstrip (r.take (r.length - (n - k)))) := by
  unfold rsDecode
  rw [if_pos hver]
  rfl

theorem roundtrip_nostrip {p n k : ℕ} [Fact p.Prime] (hk : 1 ≤ k)
    (hkn : k < n) (a : ZMod p) (m : List (ZMod p)) (hm : m.length = k)
    (w : List (ZMod p)) (henc : rsEncode p n k a m true = .ok w) :
    rsDecode p n k p a w true = .ok m := by
  have hpad : List.replicate (k - m.length) 0 ++ m = m := by
    rw [hm, Nat.sub_self, List.replicate_zero, List.nil_append]
  rw [rsEncode_ok a m (le_of_eq hm), hpad] at henc
  injection henc with henc
  have hclen : (encC p n k a m).length ≤ n :=
    encC_length_le n k a m (le_of_eq hm) (by omega) (by omega)
  set c := encC p n k a m with hc
  have hwlen : w.length = n := by
    rw [← henc]
    simp only [List.length_append, List.length_replicate]
    omega
  have hver : rsVerify p n k a w = true := by
    rw [← henc]
    exact rsVerify_encC_pad a m _
  rw [rsDecode_verified_nostrip a w hver]
  have hwtoP : toPoly w = toPoly c := by
    rw [← henc]
    exact toPoly_pad _ _
  have htake : w.length - (n - k) = k := by omega
  rw [htake]
  congr 1
  apply List.ext_get
  · rw [List.length_take, hwlen, hm]
    omega
  intro i h1 h2
  have hik : i < k := by
    rw [List.length_take] at h1
    omega
  have hin : i < n := by omega
  rw [List.get_eq_getElem, List.getElem_take, ← List.get_eq_getElem w ⟨i, by omega⟩]
  rw [get_eq_coeff w i (by omega), hwlen, hwtoP]
  rw [hc, encC_coeff_high n k a m (by omega)]
  rw [get_eq_coeff m i (by omega), hm]
  congr 1
  omega

theorem list_range_map_prod {M : Type} [CommMonoid M] (f : ℕ → M) (n : ℕ) :
    ((List.range n).map f).prod = ∏ l ∈ Finset.range n, f l := by
  induction n with
  | zero => simp
  | succ n ih =>
    rw [List.range_succ, List.map_append, List.prod_append,
      Finset.prod_range_succ, ih]
    simp

theorem rsSyndromes_coeffAt {p n k : ℕ} (a : ZMod p) (r : List (ZMod p))
    {l : ℕ} (hl : 1 ≤ l) (hl2 : l ≤ n - k) :
    coeffAt (rsSyndromes p n k a r) l = peval r (a ^ l) := by
  unfold rsSyndromes
  rw [coeffAt_eq, toPoly_mkPoly, toPoly_coeff]
  rw [List.reverse_append, List.reverse_reverse]
  show ((0 : ZMod p) :: (List.range (n - k)).map
    (fun j => peval r (a ^ (j + 1)))).getD l 0 = _
  obtain ⟨l', rfl⟩ : ∃ l', l = l' + 1 := ⟨l - 1, by omega⟩
  rw [List.getD_cons_succ]
  rw [List.getD_eq_getElem _ _ (by simpa using (by omega : l' < n - k))]
  simp

theorem genpoly_dvd_iff {p : ℕ} (hp : p.Prime) {g : ℕ}
    (hg : findgen p = some g) {n k : ℕ} (hk : 1 ≤ k) (hkn : k < n)
    (hnp : n < p) (R : Polynomial (ZMod p)) :
    haveI : Fact p.Prime := ⟨hp⟩
    (toPoly (genpoly p (g : ZMod p) (n - k)) ∣ R ↔
      ∀ l, 1 ≤ l → l ≤ n - k → R.eval ((g : ZMod p) ^ l) = 0) := by
  haveI : Fact p.Prime := ⟨hp⟩
  constructor
  · intro hdvd l hl1 hl2
    have hfac := X_sub_C_dvd_genpoly (g : ZMod p) (n - k)
      (show l - 1 < n - k by omega)
    rw [show l - 1 + 1 = l from by omega] at hfac
    exact Polynomial.dvd_iff_isRoot.mp (dvd_trans hfac hdvd)
  · intro hroots
    rw [toPoly_genpoly, list_range_map_prod
      (fun l => Polynomial.X - Polynomial.C ((g : ZMod p) ^ (l + 1))) (n - k)]
    apply Finset.prod_dvd_of_coprime
    · intro i hi j hj hij
      simp only [Finset.coe_range, Set.mem_Iio] at hi hj
      have hdist : ((g : ZMod p) ^ (i + 1)) ≠ ((g : ZMod p) ^ (j + 1)) := by
        rcases Nat.lt_or_ge i j with hlt | hge
        · exact findgen_zmod_inj hp hg (by omega) (by omega) (by omega)
        · have hgt : j < i := by omega
          exact (findgen_zmod_inj hp hg (by omega) (by omega)
            (by omega)).symm
      exact Polynomial.isCoprime_X_sub_C_of_isUnit_sub
        (isUnit_iff_ne_zero.mpr (sub_ne_zero_of_ne hdist))
    · intro i hi
      rw [Polynomial.dvd_iff_isRoot]
      exact hroots (i + 1) (by omega)
        (by have := Finset.mem_range.mp hi; omega)

theorem verify_iff_syndromes_zero {p n k : ℕ} (hp : p.Prime) {g : ℕ}
    (hg : findgen p = some g) (hk : 1 ≤ k) (hkn : k < n) (hnp : n < p)
    (R : List (ZMod p)) :
    rsVerify p n k (g : ZMod p) R = true ↔
      ∀ l, 1 ≤ l → l ≤ n - k →
        coeffAt (rsSyndromes p n k (g : ZMod p) (mkPoly R)) l = 0 := by
  haveI : Fact p.Prime := ⟨hp⟩
  rw [rsVerify_iff_dvd, genpoly_dvd_iff hp hg hk hkn hnp]
  constructor
  · intro h l hl1 hl2
    rw [rsSyndromes_coeffAt _ _ hl1 hl2, peval_eq, toPoly_mkPoly]
    exact h l hl1 hl2
  · intro h l hl1 hl2
    have := h l hl1 hl2
    rwa [rsSyndromes_coeffAt _ _ hl1 hl2, peval_eq, toPoly_mkPoly] at this

theorem toPoly_set {p : ℕ} (w : List (ZMod p)) (i : ℕ) (h : i < w.length)
    (y : ZMod p) :
    toPoly (w.set i y) = toPoly w
      + Polynomial.C (y - w.get ⟨i, h⟩)
        * Polynomial.X ^ (w.length - 1 - i) := by
  apply Polynomial.ext
  intro t
  rw [Polynomial.coeff_add, toPoly_coeff, toPoly_coeff,
    Polynomial.coeff_C_mul, Polynomial.coeff_X_pow]
  by_cases htlen : t < w.length
  · have hlen1 : t < (w.set i y).reverse.length := by
      simp only [List.length_reverse, List.length_set]
      exact htlen
    have hlen2 : t < w.reverse.length := by
      simp only [List.length_reverse]
      exact htlen
    rw [List.getD_eq_getElem _ _ hlen1, List.getD_eq_getElem _ _ hlen2]
    rw [List.getElem_reverse, List.getElem_reverse]
    simp only [List.length_set]
    rw [List.getElem_set]
    by_cases hti : t = w.length - 1 - i
    · rw [if_pos (by omega), if_pos hti, mul_one]
      rw [← List.getD_eq_getElem w 0 (by omega)]
      rw [show w.length - 1 - t = i from by omega]
      rw [List.getD_eq_getElem w 0 h]
      simp only [List.get_eq_getElem]
      ring
    · rw [if_neg (by omega), if_neg hti, mul_zero, add_zero]
  · have hge : w.length ≤ t := by omega
    rw [List.getD_eq_default _ _
        (by simp only [List.length_reverse, List.length_set]; exact hge),
      List.getD_eq_default _ _
        (by simp only [List.length_reverse]; exact hge)]
    rw [if_neg (by omega), mul_zero, add_zero]

theorem verify_mutated_false {p n k : ℕ} (hp : p.Prime) (h3 : p ≠ 3)
    {g : ℕ} (hg : findgen p = some g) (hk : 1 ≤ k) (hkn : k < n)
    (hnp : n < p) (w : List (ZMod p))
    (hdvd : toPoly (genpoly p (g : ZMod p) (n - k)) ∣ toPoly w)
    (i : ℕ) (hi : i < w.length) (y : ZMod p) (hy : y ≠ w.get ⟨i, hi⟩) :
    rsVerify p n k (g : ZMod p) (w.set i y) = false := by
  haveI : Fact p.Prime := ⟨hp⟩
  apply Bool.eq_false_iff.mpr
  intro hver
  rw [rsVerify_iff_dvd, toPoly_set w i hi y] at hver
  have hdelta := (dvd_add_right hdvd).mp hver
  have hroot := X_sub_C_dvd_genpoly (g : ZMod p) (n - k)
    (show 0 < n - k by omega)
  have hzero := Polynomial.dvd_iff_isRoot.mp (dvd_trans hroot hdelta)
  rw [Polynomial.IsRoot.def, Polynomial.eval_mul, Polynomial.eval_pow,
    Polynomial.eval_C, Polynomial.eval_X] at hzero
  have hane : ((g : ZMod p) ^ (0 + 1)) ≠ 0 := by
    apply pow_ne_zero
    exact natCast_zmod_ne_zero hp (findgen_ne_zero hp h3 hg)
      (findgen_spec hg).2.1
  rcases mul_eq_zero.mp hzero with hd | hpow
  · exact hy (by rwa [sub_eq_zero] at hd)
  · exact pow_ne_zero _ hane hpow

theorem toPoly_zzList {p : ℕ} :
    toPoly (mkPoly [(1 : ZMod p), 0]) = Polynomial.X := by
  rw [toPoly_mkPoly]
  have := toPoly_monomialList (1 : ZMod p) 1
  simpa using this

theorem mkPoly_single_ne {p : ℕ} {c : ZMod p} (hc : c ≠ 0) :
    mkPoly [c] = [c] := by
  simp [mkPoly, pstrip, hc]

theorem bmStep_cases (p : ℕ) (s : List (ZMod p)) (l : ℕ) (st : BMState p) :
    bmStep p s l st = bmRuleA p s l st ∨
      (bmDelta p s l st ≠ 0 ∧ bmStep p s l st = bmRuleB p s l st) := by
  unfold bmStep
  by_cases h1 : bmDelta p s l st = 0 ∨ 2 * st.D > l + 1
  · rw [if_pos h1]; exact Or.inl rfl
  · rw [if_neg h1]
    push_neg at h1
    by_cases h2 : bmDelta p s l st ≠ 0 ∧ 2 * st.D < l + 1
    · rw [if_pos h2]; exact Or.inr ⟨h1.1, rfl⟩
    · rw [if_neg h2]
      have h3 : 2 * st.D = l + 1 := by
        obtain ⟨hD0, hle⟩ := h1
        by_contra hne
        exact h2 ⟨hD0, by omega⟩
      rw [if_pos h3]
      by_cases h4 : st.B = 0
      · rw [if_pos h4]; exact Or.inl rfl
      · rw [if_neg h4]; exact Or.inr ⟨h1.1, rfl⟩

theorem bm_invariant {p : ℕ} [Fact p.Prime] (s : List (ZMod p))
    (hs : (toPoly s).coeff 0 = 0) : ∀ l : ℕ,
    (Polynomial.X ^ (l + 1) ∣
      ((1 + toPoly s) * toPoly (bmIter p s l).sigma
        - toPoly (bmIter p s l).omega)) ∧
    (Polynomial.X ^ (l + 1) ∣
      ((1 + toPoly s) * toPoly (bmIter p s l).tao
        - (toPoly (bmIter p s l).gamma + Polynomial.X ^ l))) ∧
    (∀ i, l + 1 ≤ i → (toPoly (bmIter p s l).omega).coeff i = 0) ∧
    (∀ i, l ≤ i → (toPoly (bmIter p s l).gamma).coeff i = 0) := by
  intro l
  induction l with
  | zero =>
    have h1 : toPoly (bmIter p s 0).sigma = 1 := by
      show toPoly (mkPoly [1]) = 1
      rw [toPoly_mkPoly, toPoly_single, Polynomial.C_1]
    have h2 : toPoly (bmIter p s 0).omega = 1 := by
      show toPoly (mkPoly [1]) = 1
      rw [toPoly_mkPoly, toPoly_single, Polynomial.C_1]
    have h3 : toPoly (bmIter p s 0).tao = 1 := by
      show toPoly (mkPoly [1]) = 1
      rw [toPoly_mkPoly, toPoly_single, Polynomial.C_1]
    have h4 : toPoly (bmIter p s 0).gamma = 0 := by
      show toPoly (mkPoly [0]) = 0
      rw [toPoly_mkPoly, toPoly_zero]
    refine ⟨?_, ?_, ?_, ?_⟩
    · rw [h1, h2, pow_one]
      rw [show (1 + toPoly s) * 1 - 1 = toPoly s from by ring]
      exact Polynomial.X_dvd_iff.mpr hs
    · rw [h3, h4, pow_one, pow_zero]
      rw [show (1 + toPoly s) * 1 - (0 + 1) = toPoly s from by ring]
      exact Polynomial.X_dvd_iff.mpr hs
    · intro i hi
      rw [h2, Polynomial.coeff_one, if_neg (by omega)]
    · intro i hi
      rw [h4, Polynomial.coeff_zero]
  | succ l ih =>
    obtain ⟨ih1, ih2, ih3, ih4⟩ := ih
    obtain ⟨h1p, hA⟩ := ih1
    obtain ⟨h2p, hB⟩ := ih2
    set st := bmIter p s l with hst
    set S := toPoly s with hS
    have hωc := ih3 (l + 1) le_rfl
    have hAc : (1 + S) * toPoly st.sigma
        = toPoly st.omega + Polynomial.X ^ (l + 1) * h1p := by
      linear_combination hA
    have hDval : bmDelta p s l st = h1p.coeff 0 := by
      unfold bmDelta
      rw [coeffAt_eq, toPoly_pmul, toPoly_padd, toPoly_mkPoly, toPoly_single,
        Polynomial.C_1, hAc, Polynomial.coeff_add, hωc, zero_add]
      simpa using Polynomial.coeff_X_pow_mul h1p (l + 1) 0
    obtain ⟨h3q, hh3⟩ := Polynomial.X_dvd_iff.mpr
      (show (h1p - Polynomial.C (h1p.coeff 0)).coeff 0 = 0 by
        simp)
    have hK : (1 + S) * toPoly st.sigma - toPoly st.omega
        - Polynomial.C (bmDelta p s l st) * Polynomial.X ^ (l + 1)
        = Polynomial.X ^ (l + 2) * h3q := by
      rw [hDval]
      linear_combination hA + Polynomial.X ^ (l + 1) * hh3
    have hσA : toPoly (bmRuleA p s l st).sigma
        = toPoly st.sigma - Polynomial.C (bmDelta p s l st) * Polynomial.X
          * toPoly st.tao := by
      show toPoly (psub st.sigma (pmul (pmul (mkPoly [bmDelta p s l st])
        (mkPoly [1, 0])) st.tao)) = _
      rw [toPoly_psub, toPoly_pmul, toPoly_pmul, toPoly_mkPoly, toPoly_single,
        toPoly_zzList]
    have hωA : toPoly (bmRuleA p s l st).omega
        = toPoly st.omega - Polynomial.C (bmDelta p s l st) * Polynomial.X
          * toPoly st.gamma := by
      show toPoly (psub st.omega (pmul (pmul (mkPoly [bmDelta p s l st])
        (mkPoly [1, 0])) st.gamma)) = _
      rw [toPoly_psub, toPoly_pmul, toPoly_pmul, toPoly_mkPoly, toPoly_single,
        toPoly_zzList]
    rcases bmStep_cases p s l st with hstep | ⟨hΔne, hstep⟩
    · have hnext : bmIter p s (l + 1) = bmRuleA p s l st := by
        have hit : bmIter p s (l + 1) = bmStep p s l (bmIter p s l) := rfl
        rw [hit, ← hst]
        exact hstep
      rw [hnext]
      have hτ : toPoly (bmRuleA p s l st).tao
          = Polynomial.X * toPoly st.tao := by
        show toPoly (pmul (mkPoly [1, 0]) st.tao) = _
        rw [toPoly_pmul, toPoly_zzList]
      have hγ : toPoly (bmRuleA p s l st).gamma
          = Polynomial.X * toPoly st.gamma := by
        show toPoly (pmul (mkPoly [1, 0]) st.gamma) = _
        rw [toPoly_pmul, toPoly_zzList]
      refine ⟨?_, ?_, ?_, ?_⟩
      · rw [hσA, hωA]
        refine ⟨h3q - Polynomial.C (bmDelta p s l st) * h2p, ?_⟩
        linear_combination hK
          - (Polynomial.C (bmDelta p s l st) * Polynomial.X) * hB
      · rw [hτ, hγ]
        refine ⟨h2p, ?_⟩
        linear_combination Polynomial.X * hB
      · intro i hi
        rw [hωA]
        obtain ⟨j, rfl⟩ : ∃ j, i = j + 1 := ⟨i - 1, by omega⟩
        rw [Polynomial.coeff_sub, ih3 (j + 1) (by omega), zero_sub,
          neg_eq_zero, mul_assoc, Polynomial.coeff_C_mul,
          Polynomial.coeff_X_mul, ih4 j (by omega), mul_zero]
      · intro i hi
        rw [hγ]
        obtain ⟨j, rfl⟩ : ∃ j, i = j + 1 := ⟨i - 1, by omega⟩
        rw [Polynomial.coeff_X_mul, ih4 j (by omega)]
    · have hnext : bmIter p s (l + 1) = bmRuleB p s l st := by
        have hit : bmIter p s (l + 1) = bmStep p s l (bmIter p s l) := rfl
        rw [hit, ← hst]
        exact hstep
      rw [hnext]
      have hσB : toPoly (bmRuleB p s l st).sigma
          = toPoly st.sigma - Polynomial.C (bmDelta p s l st) * Polynomial.X
            * toPoly st.tao := hσA
      have hωB : toPoly (bmRuleB p s l st).omega
          = toPoly st.omega - Polynomial.C (bmDelta p s l st) * Polynomial.X
            * toPoly st.gamma := hωA
      have hτ : toPoly (bmRuleB p s l st).tao
          = toPoly st.sigma * Polynomial.C (bmDelta p s l st)⁻¹ := by
        show toPoly ((pdivmod st.sigma (mkPoly [bmDelta p s l st])).1) = _
        rw [mkPoly_single_ne hΔne]
        exact pdivmod_constDiv st.sigma hΔne
      have hγ : toPoly (bmRuleB p s l st).gamma
          = toPoly st.omega * Polynomial.C (bmDelta p s l st)⁻¹ := by
        show toPoly ((pdivmod st.omega (mkPoly [bmDelta p s l st])).1) = _
        rw [mkPoly_single_ne hΔne]
        exact pdivmod_constDiv st.omega hΔne
      have hCinv : Polynomial.C (bmDelta p s l st)⁻¹
          * Polynomial.C (bmDelta p s l st) = 1 := by
        rw [← Polynomial.C_mul, inv_mul_cancel₀ hΔne, Polynomial.C_1]
      refine ⟨?_, ?_, ?_, ?_⟩
      · rw [hσB, hωB]
        refine ⟨h3q - Polynomial.C (bmDelta p s l st) * h2p, ?_⟩
        linear_combination hK
          - (Polynomial.C (bmDelta p s l st) * Polynomial.X) * hB
      · rw [hτ, hγ]
        refine ⟨Polynomial.C (bmDelta p s l st)⁻¹ * h3q, ?_⟩
        linear_combination (Polynomial.C (bmDelta p s l st)⁻¹) * hK
          + Polynomial.X ^ (l + 1) * hCinv
      · intro i hi
        rw [hωB]
        obtain ⟨j, rfl⟩ : ∃ j, i = j + 1 := ⟨i - 1, by omega⟩
        rw [Polynomial.coeff_sub, ih3 (j + 1) (by omega), zero_sub,
          neg_eq_zero, mul_assoc, Polynomial.coeff_C_mul,
          Polynomial.coeff_X_mul, ih4 j (by omega), mul_zero]
      · intro i hi
        rw [hγ, Polynomial.coeff_mul_C, ih3 i (by omega), zero_mul]

theorem rsSyndromes_coeff_zero {p n k : ℕ} (a : ZMod p)
    (r : List (ZMod p)) : (toPoly (rsSyndromes p n k a r)).coeff 0 = 0 := by
  unfold rsSyndromes
  rw [toPoly_mkPoly, toPoly_coeff, List.reverse_append, List.reverse_reverse]
  rfl

theorem rsEncode_ok_length {p n k : ℕ} (a : ZMod p) (m : List (ZMod p))
    (nostrip : Bool) (w : List (ZMod p))
    (h : rsEncode p n k a m nostrip = .ok w) : m.length ≤ k := by
  by_contra hlen
  unfold rsEncode at h
  rw [if_pos (by
    simp only [List.length_append, List.length_replicate]
    omega)] at h
  exact absurd h (by simp)

theorem pfNew_in_range {p : ℕ} (hp : is_prime (p : Int) = true) {m : Int}
    (h0 : 0 ≤ m) (hlt : m < (p : Int)) :
    pfNew p (some m) = .ok (some m.toNat) := by
  unfold pfNew
  rw [if_neg (by simp [hp])]
  show (if ((p : Int) ≤ m ∨ m < 0) then
      (Except.error "Field elements must be between 0 and p-1")
    else .ok (some m.toNat)) = .ok (some m.toNat)
  rw [if_neg (by omega)]

theorem pfNew_out_of_range {p : ℕ} (hp : is_prime (p : Int) = true) {m : Int}
    (hout : m < 0 ∨ (p : Int) ≤ m) :
    pfNew p (some m) = .error "Field elements must be between 0 and p-1" := by
  unfold pfNew
  rw [if_neg (by simp [hp])]
  show (if ((p : Int) ≤ m ∨ m < 0) then
      (Except.error "Field elements must be between 0 and p-1")
    else .ok (some m.toNat)) = _
  rw [if_pos (by omega)]

theorem pfAdd_in_range {p a : ℕ} (hp : is_prime (p : Int) = true)
    (ha : a < p) (m : Int) :
    (0 ≤ m → m < (p : Int) → pfAdd p a m = .ok ((a + m.toNat) % p)) ∧
    ((m < 0 ∨ (p : Int) ≤ m) → pfAdd p a m
      = .error "Field elements must be between 0 and p-1") := by
  constructor
  · intro h0 hlt
    unfold pfAdd
    rw [pfNew_in_range hp h0 hlt]
  · intro hout
    unfold pfAdd
    rw [pfNew_out_of_range hp hout]

theorem pow_image_subset_Ioo {p b : ℕ} (hp : p.Prime) (hb0 : 0 < b)
    (hbp : b < p) :
    ((List.range p).map (fun t => b ^ t % p)).toFinset ⊆ Finset.Ioo 0 p := by
  intro y hy
  simp only [List.mem_toFinset, List.mem_map, List.mem_range] at hy
  obtain ⟨t, ht, rfl⟩ := hy
  exact Finset.mem_Ioo.mpr ⟨pow_mod_pos hp hb0 hbp t, Nat.mod_lt _ hp.pos⟩

theorem findgen_amended {p g : ℕ} (hp : p.Prime) (h3 : p ≠ 3)
    (hg : findgen p = some g) :
    1 ≤ g ∧ g < p ∧
    (∀ y, 0 < y → y < p → ∃ i, i < p ∧ g ^ i % p = y) ∧
    ((List.range p).map (fun i => g ^ i % p)).toFinset.card = p - 1 ∧
    (∀ b, 1 ≤ b → b < g →
      ¬ (∀ y, 0 < y → y < p → ∃ i, i < p ∧ b ^ i % p = y)) := by
  obtain ⟨hcond, hgp, hmin⟩ := findgen_spec hg
  have hg0 : g ≠ 0 := findgen_ne_zero hp h3 hg
  refine ⟨by omega, hgp, genCond_covers hp (by omega) hgp hcond,
    genCond_card hcond, ?_⟩
  intro b hb1 hbg hcov
  have hbp : b < p := by omega
  have hbcond : genCond p b = true := by
    unfold genCond
    rw [beq_iff_eq]
    have hsup : Finset.Ioo 0 p
        ⊆ ((List.range p).map (fun t => b ^ t % p)).toFinset := by
      intro y hy
      obtain ⟨hy0, hyp⟩ := Finset.mem_Ioo.mp hy
      obtain ⟨i, hi, hei⟩ := hcov y hy0 hyp
      simp only [List.mem_toFinset, List.mem_map, List.mem_range]
      exact ⟨i, hi, hei⟩
    rw [Finset.Subset.antisymm (pow_image_subset_Ioo hp (by omega) hbp) hsup,
      Nat.card_Ioo]
    omega
  have hfalse := hmin b hbg
  rw [hbcond] at hfalse
  exact absurd hfalse (by simp)

/-- C1: the claim states that decoding corrects every pattern of at most
s = (n - k) / 2 symbol errors.  The code violates it: over Code(7, 5, 1)
with alpha = findgen 7 = 3 and s = 2, the message [1] encodes to
[1, 6, 3, 2, 4]; the received word [2, 6, 3, 2, 5] differs from the
codeword in exactly two positions (0 and 4), yet decode returns [3]
instead of [1].  The Chien search scans a^l only for l in [1, b - 2] and
misses the root z = 1 = a^0 produced by the error at position 0, so the
other error is corrected with a wrong Forney magnitude. -/
theorem claim_C1_decode_fails_within_s :
    findgen 7 = some 3 ∧
    rsEncode 7 5 1 (3 : ZMod 7) [1] true = .ok [1, 6, 3, 2, 4] ∧
    (5 - 1) / 2 = 2 ∧
    (List.zip ([1, 6, 3, 2, 4] : List (ZMod 7)) [2, 6, 3, 2, 5]).countP
      (fun xy => xy.1 != xy.2) = 2 ∧
    rsDecode 7 5 1 7 (3 : ZMod 7) [2, 6, 3, 2, 5] true = .ok [3] ∧
    ([3] : List (ZMod 7)) ≠ [1] := by
  refine ⟨by decide, by decide, by decide, by decide, by decide, by decide⟩

/-- C2 (counterexample): with the codec Code(5, 4, 2), alpha = 2, the
message [0, 1] of exactly k = 2 field elements round-trips to [1]: the
default encode strips the leading zero coefficient and the default decode
strips leading zero symbols, so decode(encode(m)) is not m. -/
theorem claim_C2_counterexample :
    findgen 5 = some 2 ∧
    rsEncode 5 4 2 (2 : ZMod 5) [0, 1] false = .ok [1, 4, 3] ∧
    rsDecode 5 4 2 5 (2 : ZMod 5) [1, 4, 3] false = .ok [1] ∧
    ([1] : List (ZMod 5)) ≠ [0, 1] := by
  refine ⟨by decide, by decide, by decide, by decide⟩

/-- C2 (amended): with nostrip set on both calls the round trip is exact:
for every valid codec Code(p, n, k) and every message m of exactly k
field elements, decoding the unmodified encoding of m returns m, leading
zeros included. -/
theorem claim_C2_roundtrip {p n k g : ℕ} (hp : p.Prime) (hk : 1 ≤ k)
    (hkn : k < n) (hnp : n < p) (hg : findgen p = some g)
    (m : List (ZMod p)) (hm : m.length = k) (w : List (ZMod p))
    (henc : rsEncode p n k (g : ZMod p) m true = .ok w) :
    rsDecode p n k p (g : ZMod p) w true = .ok m := by
  haveI : Fact p.Prime := ⟨hp⟩
  exact roundtrip_nostrip hk hkn _ m hm w henc

/-- Witness for the amended C2 at Code(5, 4, 2), message [0, 1]. -/
theorem claim_C2_roundtrip_witness :
    rsDecode 5 4 2 5 (2 : ZMod 5) [0, 1, 4, 3] true = .ok [0, 1] :=
  claim_C2_roundtrip (by norm_num) (by norm_num) (by norm_num) (by norm_num)
    (show findgen 5 = some 2 by decide) [0, 1] (by decide) [0, 1, 4, 3]
    (by decide)

/-- C3: verify returns true exactly when the received word, read as a
polynomial, leaves remainder zero modulo g, and exactly when every
syndrome S_l = R(alpha^l) for l = 1 .. n - k is zero (the syndromes being
the coefficients of the polynomial built by _syndromes); in this model
verify is a pure function of its input, so it has no side effects. -/
theorem claim_C3_verify_iff {p n k g : ℕ} (hp : p.Prime) (hk : 1 ≤ k)
    (hkn : k < n) (hnp : n < p) (hg : findgen p = some g)
    (R : List (ZMod p)) (hR : R.length = n) :
    (rsVerify p n k (g : ZMod p) R = true ↔
      (pdivmod (mkPoly R) (genpoly p (g : ZMod p) (n - k))).2
        = mkPoly [0]) ∧
    (rsVerify p n k (g : ZMod p) R = true ↔
      ∀ l, 1 ≤ l → l ≤ n - k →
        coeffAt (rsSyndromes p n k (g : ZMod p) (mkPoly R)) l = 0) := by
  constructor
  · unfold rsVerify
    exact beq_iff_eq
  · exact verify_iff_syndromes_zero hp hg hk hkn hnp R

/-- Witness for C3 at Code(5, 4, 2) on the word [1, 4, 3, 0]. -/
theorem claim_C3_verify_iff_witness :
    (rsVerify 5 4 2 (2 : ZMod 5) [1, 4, 3, 0] = true ↔
      (pdivmod (mkPoly [1, 4, 3, 0]) (genpoly 5 (2 : ZMod 5) (4 - 2))).2
        = mkPoly [0]) ∧
    (rsVerify 5 4 2 (2 : ZMod 5) [1, 4, 3, 0] = true ↔
      ∀ l, 1 ≤ l → l ≤ 4 - 2 →
        coeffAt (rsSyndromes 5 4 2 (2 : ZMod 5) (mkPoly [1, 4, 3, 0])) l
          = 0) :=
  claim_C3_verify_iff (by norm_num) (by norm_num) (by norm_num)
    (by norm_num) (show findgen 5 = some 2 by decide) [1, 4, 3, 0]
    (by decide)

/-- C4 (counterexample): over the valid codec Code(3, 2, 1) the chosen
generator is findgen 3 = 0, so g(x) = x - 0^1 = x; [1] encodes to the
codeword [1, 0], and changing position 0 of the returned sequence (the
coefficient of x) from 1 to 2 gives 2x, still a multiple of g, so verify
stays true. -/
theorem claim_C4_counterexample :
    findgen 3 = some 0 ∧
    rsEncode 3 2 1 (0 : ZMod 3) [1] true = .ok [1, 0] ∧
    ((2 : ZMod 3) ≠ ([1, 0] : List (ZMod 3)).getD 0 0) ∧
    rsVerify 3 2 1 (0 : ZMod 3) (([1, 0] : List (ZMod 3)).set 0 2)
      = true := by
  refine ⟨by decide, by decide, by decide, by decide⟩

/-- C4 (amended): for every codec with p ≠ 3 (so the chosen alpha is a
nonzero element), changing any single position of an encoded word to a
different field value makes verify return false. -/
theorem claim_C4_mutation {p n k g : ℕ} (hp : p.Prime) (h3 : p ≠ 3)
    (hk : 1 ≤ k) (hkn : k < n) (hnp : n < p) (hg : findgen p = some g)
    (m w : List (ZMod p))
    (henc : rsEncode p n k (g : ZMod p) m true = .ok w) (i : ℕ)
    (hi : i < w.length) (y : ZMod p) (hy : y ≠ w.get ⟨i, hi⟩) :
    rsVerify p n k (g : ZMod p) (w.set i y) = false := by
  haveI : Fact p.Prime := ⟨hp⟩
  apply verify_mutated_false hp h3 hg hk hkn hnp w ?_ i hi y hy
  have hlen := rsEncode_ok_length (g : ZMod p) m true w henc
  rw [rsEncode_ok (g : ZMod p) m hlen] at henc
  injection henc with henc
  rw [← henc, toPoly_pad]
  exact encC_dvd n k (g : ZMod p) _

/-- Witness for the amended C4 at Code(5, 4, 2): flipping position 0 of
the codeword [0, 1, 4, 3] to 1 invalidates it. -/
theorem claim_C4_mutation_witness :
    rsVerify 5 4 2 (2 : ZMod 5) (([0, 1, 4, 3] : List (ZMod 5)).set 0 1)
      = false :=
  claim_C4_mutation (by norm_num) (by norm_num) (by norm_num) (by norm_num)
    (by norm_num) (show findgen 5 = some 2 by decide) [0, 1] [0, 1, 4, 3]
    (by decide) 0 (by decide) 1 (by decide)

/-- C5: the claim states construction fails exactly when p is non-prime
or 0 < k < n < p is violated, in particular rejecting k = 0.  The code
checks only k < 0, so RSCoder(5, 2, 0) with k = 0 is accepted even though
its own error message says k must be positive; conversely the prime
instance RSCoder(61, 60, 5), which satisfies 0 < 5 < 60 < 61, is rejected
by the default-mapper alphabet bound b ≤ 59. -/
theorem claim_C5_init_run :
    rsInit 5 2 0 = .ok () ∧
    rsInit 61 60 5 = .error "Base b too large for default mapper" := by
  refine ⟨by decide, by decide⟩

/-- C6: the claim states that the inverse of zero is a hard error.  In
the code invtable[p][0] is None and PFint(p, None) takes the n-is-None
branch of __new__, which fabricates and returns a subclass (modelled as
ok none): the call returns normally, raising nothing and producing no
field element.  For nonzero a the table value a^(p-2) mod p is returned
as the claim describes: PFint(59, 9).inverse() = 46 and 9 * 46 = 1
modulo 59. -/
theorem claim_C6_inverse_run :
    pfInverse 59 0 = .ok none ∧
    pfInverse 59 9 = .ok (some (9 ^ (59 - 2) % 59)) ∧
    9 ^ (59 - 2) % 59 = 46 ∧ 9 * 46 % 59 = 1 := by
  refine ⟨by decide, by decide, by decide, by decide⟩

/-- C7 (counterexample): the claim states a + m reduces every integer m
modulo p; instead PFint.__add__ passes m to the PFint constructor, which
rejects values outside [0, p): PFint(59, 3) + 60 raises the range error
rather than producing (3 + 60) mod 59 = 4. -/
theorem claim_C7_counterexample :
    pfAdd 59 3 60 = .error "Field elements must be between 0 and p-1" := by
  decide

/-- C7 (amended): an integer operand of addition is accepted only when it
already lies in [0, p), in which case the sum is reduced modulo p;
out-of-range operands (negative or at least p) raise the constructor
range error instead of being reduced. -/
theorem claim_C7_add_int {p a : ℕ} (hp : is_prime (p : Int) = true)
    (ha : a < p) (m : Int) :
    (0 ≤ m → m < (p : Int) → pfAdd p a m = .ok ((a + m.toNat) % p)) ∧
    ((m < 0 ∨ (p : Int) ≤ m) → pfAdd p a m
      = .error "Field elements must be between 0 and p-1") :=
  pfAdd_in_range hp ha m

/-- Witness for the amended C7 at p = 59, a = 3, m = 9. -/
theorem claim_C7_add_int_witness :
    pfAdd 59 3 9 = .ok ((3 + (9 : Int).toNat) % 59) :=
  (claim_C7_add_int (by decide) (by norm_num) 9).1 (by norm_num)
    (by norm_num)

/-- C8 (counterexample): at the valid prime p = 3 the scan returns
findgen 3 = some 0: the powers of 0 are {1, 0}, whose cardinality is
p - 1 = 2, so the code accepts 0 even though 0 is not in [1, p) and no
power of 0 reaches the nonzero element 2 of GF(3). -/
theorem claim_C8_counterexample :
    findgen 3 = some 0 ∧
    ¬ (∃ i, i < 3 ∧ 0 ^ i % 3 = 2) := by
  refine ⟨by decide, by decide⟩

/-- C8 (amended): for every prime p ≠ 3, the generator chosen by findgen
lies in [1, p), its powers cover every nonzero residue, they take exactly
p - 1 distinct values, and no smaller element of [1, p) has covering
powers. -/
theorem claim_C8_findgen {p g : ℕ} (hp : p.Prime) (h3 : p ≠ 3)
    (hg : findgen p = some g) :
    1 ≤ g ∧ g < p ∧
    (∀ y, 0 < y → y < p → ∃ i, i < p ∧ g ^ i % p = y) ∧
    ((List.range p).map (fun i => g ^ i % p)).toFinset.card = p - 1 ∧
    (∀ b, 1 ≤ b → b < g →
      ¬ (∀ y, 0 < y → y < p → ∃ i, i < p ∧ b ^ i % p = y)) :=
  findgen_amended hp h3 hg

/-- Witness for the amended C8 at p = 5, where findgen returns 2: some
power of 2 reaches the nonzero residue 3. -/
theorem claim_C8_findgen_witness :
    ∃ i, i < 5 ∧ 2 ^ i % 5 = 3 :=
  (claim_C8_findgen (by norm_num) (by norm_num)
    (show findgen 5 = some 2 by decide)).2.2.1 3 (by norm_num)
    (by norm_num)

/-- C9 (counterexample): the default encode strips leading zero symbols:
over Code(5, 4, 2) the accepted message [0, 1] encodes to the 3-element
sequence [1, 4, 3], not to an n = 4 element sequence. -/
theorem claim_C9_counterexample :
    rsEncode 5 4 2 (2 : ZMod 5) [0, 1] false = .ok [1, 4, 3] ∧
    ¬ (([1, 4, 3] : List (ZMod 5)).length = 4) := by
  refine ⟨by decide, by decide⟩

/-- C9 (amended): the nostrip encoding always has exactly n elements,
highest degree first; it is the default (stripped) encoding padded at the
top with zero symbols, and the stripped encoding never exceeds n
elements. -/
theorem claim_C9_nostrip {p n k g : ℕ} (hp : p.Prime) (hk : 1 ≤ k)
    (hkn : k < n) (hnp : n < p) (hg : findgen p = some g)
    (m v w : List (ZMod p))
    (hdef : rsEncode p n k (g : ZMod p) m false = .ok v)
    (hns : rsEncode p n k (g : ZMod p) m true = .ok w) :
    w.length = n ∧ w = List.replicate (n - v.length) 0 ++ v ∧
      v.length ≤ n := by
  haveI : Fact p.Prime := ⟨hp⟩
  have hm := rsEncode_ok_length (g : ZMod p) m false v hdef
  rw [rsEncode_default_ok _ m hm] at hdef
  rw [rsEncode_ok _ m hm] at hns
  injection hdef with hdef
  injection hns with hns
  have hlenpad : (List.replicate (k - m.length) 0 ++ m).length ≤ k := by
    simp only [List.length_append, List.length_replicate]
    omega
  have hclen : (encC p n k (g : ZMod p)
      (List.replicate (k - m.length) 0 ++ m)).length ≤ n :=
    encC_length_le n k _ _ hlenpad (by omega) (by omega)
  subst hdef
  refine ⟨?_, hns.symm, hclen⟩
  rw [← hns]
  simp only [List.length_append, List.length_replicate]
  omega

/-- Witness for the amended C9 at Code(5, 4, 2), message [0, 1]. -/
theorem claim_C9_nostrip_witness :
    ([0, 1, 4, 3] : List (ZMod 5)).length = 4 ∧
    ([0, 1, 4, 3] : List (ZMod 5))
      = List.replicate (4 - ([1, 4, 3] : List (ZMod 5)).length) 0
        ++ [1, 4, 3] ∧
    ([1, 4, 3] : List (ZMod 5)).length ≤ 4 :=
  claim_C9_nostrip (by norm_num) (show (1 : ℕ) ≤ 2 by norm_num)
    (by norm_num) (by norm_num) (show findgen 5 = some 2 by decide) [0, 1]
    [1, 4, 3] [0, 1, 4, 3]
    (show rsEncode 5 4 2 ((2 : ℕ) : ZMod 5) [0, 1] false = .ok [1, 4, 3]
      by decide)
    (show rsEncode 5 4 2 ((2 : ℕ) : ZMod 5) [0, 1] true
        = .ok [0, 1, 4, 3] by decide)

/-- C10: the Berlekamp-Massey invariant: for every syndrome polynomial S
produced by _syndromes and every iteration index l, the internal
polynomials satisfy (1 + S) * sigma_l = omega_l modulo z^(l + 1), and in
particular the returned pair satisfies the congruence modulo
z^(n - k + 1). -/
theorem claim_C10_bm {p n k g : ℕ} (hp : p.Prime) (hg : findgen p = some g)
    (r : List (ZMod p)) (l : ℕ) (hl : l ≤ n - k) :
    (Polynomial.X ^ (l + 1) ∣
      ((1 + toPoly (rsSyndromes p n k (g : ZMod p) (mkPoly r)))
        * toPoly ((bmIter p (rsSyndromes p n k (g : ZMod p) (mkPoly r))
            l).sigma)
        - toPoly ((bmIter p (rsSyndromes p n k (g : ZMod p) (mkPoly r))
            l).omega))) ∧
    (Polynomial.X ^ (n - k + 1) ∣
      ((1 + toPoly (rsSyndromes p n k (g : ZMod p) (mkPoly r)))
        * toPoly ((rsBM p n k
            (rsSyndromes p n k (g : ZMod p) (mkPoly r))).1)
        - toPoly ((rsBM p n k
            (rsSyndromes p n k (g : ZMod p) (mkPoly r))).2))) := by
  haveI : Fact p.Prime := ⟨hp⟩
  have hs := rsSyndromes_coeff_zero (n := n) (k := k) ((g : ZMod p))
    (mkPoly r)
  exact ⟨(bm_invariant _ hs l).1, (bm_invariant _ hs (n - k)).1⟩

/-- Witness for C10 at Code(5, 4, 2) on the word [1, 2, 3], l = 1. -/
theorem claim_C10_bm_witness :
    (Polynomial.X ^ (1 + 1) ∣
      ((1 + toPoly (rsSyndromes 5 4 2 (2 : ZMod 5) (mkPoly [1, 2, 3])))
        * toPoly ((bmIter 5 (rsSyndromes 5 4 2 (2 : ZMod 5)
            (mkPoly [1, 2, 3])) 1).sigma)
        - toPoly ((bmIter 5 (rsSyndromes 5 4 2 (2 : ZMod 5)
            (mkPoly [1, 2, 3])) 1).omega))) ∧
    (Polynomial.X ^ (4 - 2 + 1) ∣
      ((1 + toPoly (rsSyndromes 5 4 2 (2 : ZMod 5) (mkPoly [1, 2, 3])))
        * toPoly ((rsBM 5 4 2
            (rsSyndromes 5 4 2 (2 : ZMod 5) (mkPoly [1, 2, 3]))).1)
        - toPoly ((rsBM 5 4 2
            (rsSyndromes 5 4 2 (2 : ZMod 5) (mkPoly [1, 2, 3]))).2))) :=
  claim_C10_bm (by norm_num) (show findgen 5 = some 2 by decide) [1, 2, 3]
    1 (by norm_num)

end RSPrime
